import Mathlib

/-!
# Verification of the NativeBridge release orchestrator (`scripts/release.sh`)

A shallow embedding of the release script's version model, descriptor
mutation, and staged pipeline, together with proofs of the specified
properties.  Version strings are modelled as `List Char`; the shell's
`sed`/`awk` text processing is embedded as executable functions on
character lists, and the pipeline's effectful behaviour as a pure
function from a configuration, an environment and a repository state to
a final state, an exit code, a message log and an event trace.
-/

set_option autoImplicit false

namespace ReleaseScript

/-! ## Characters and decimal digits -/

/-- The character class `[0-9]` of the version regex. -/
def isDigitCh (c : Char) : Bool := '0' ≤ c && c ≤ '9'

/-- The character class `[a-zA-Z0-9.]` allowed in a pre-release label. -/
def isLabelCh (c : Char) : Bool :=
  isDigitCh c || ('a' ≤ c && c ≤ 'z') || ('A' ≤ c && c ≤ 'Z') || c == '.'

/-- Numeric value of a digit character. -/
def digitVal (c : Char) : Nat := c.toNat - 48

/-- Decimal value of a string of digit characters (most significant first),
as `awk` reads a numeric field. -/
def numVal (cs : List Char) : Nat := cs.foldl (fun a c => a * 10 + digitVal c) 0

/-- Fuel-driven big-endian decimal digit expansion (`fuel` bounds recursion depth). -/
def digitsAux : Nat → Nat → List Nat
  | 0, _ => []
  | fuel + 1, n => if n < 10 then [n] else digitsAux fuel (n / 10) ++ [n % 10]

/-- Big-endian decimal digits of `n`, as `printf "%d"` renders it. -/
def digitsOf (n : Nat) : List Nat := digitsAux (n + 1) n

/-- Digit character for a digit value. -/
def chDig (d : Nat) : Char := Char.ofNat (48 + d)

/-- The character string `printf "%d"` produces for `n`. -/
def reprChars (n : Nat) : List Char := (digitsOf n).map chDig

/-- The character string `printf "%02d"` produces for `n`:
zero-padded on the left to width at least 2. -/
def pad2Chars (n : Nat) : List Char :=
  if n < 10 then '0' :: reprChars n else reprChars n

theorem digitsAux_fuel {n f₁ f₂ : Nat} (h₁ : n < f₁) (h₂ : n < f₂) :
    digitsAux f₁ n = digitsAux f₂ n := by
  induction n using Nat.strong_induction_on generalizing f₁ f₂ with
  | _ n ih =>
    obtain ⟨g₁, rfl⟩ : ∃ g, f₁ = g + 1 := ⟨f₁ - 1, by omega⟩
    obtain ⟨g₂, rfl⟩ : ∃ g, f₂ = g + 1 := ⟨f₂ - 1, by omega⟩
    by_cases h : n < 10
    · simp [digitsAux, h]
    · have hd : n / 10 < n := Nat.div_lt_self (by omega) (by omega)
      simp only [digitsAux, h, if_false]
      have he := ih (n / 10) hd (show n / 10 < g₁ by omega) (show n / 10 < g₂ by omega)
      rw [he]

theorem digitsOf_eq (n : Nat) :
    digitsOf n = if n < 10 then [n] else digitsOf (n / 10) ++ [n % 10] := by
  by_cases h : n < 10
  · simp [digitsOf, digitsAux, h]
  · simp only [h, if_false]
    have hd : n / 10 < n := Nat.div_lt_self (by omega) (by omega)
    show digitsAux (n + 1) n = digitsAux (n / 10 + 1) (n / 10) ++ [n % 10]
    simp only [digitsAux, h, if_false]
    exact congrArg (· ++ [n % 10]) (digitsAux_fuel hd (Nat.lt_succ_self _))

/-- Decimal value of a big-endian digit list. -/
def natVal (ds : List Nat) : Nat := ds.foldl (fun a d => a * 10 + d) 0

theorem natVal_append_single (ds : List Nat) (d : Nat) :
    natVal (ds ++ [d]) = natVal ds * 10 + d := by
  simp [natVal, List.foldl_append]

theorem natVal_digitsOf (n : Nat) : natVal (digitsOf n) = n := by
  induction n using Nat.strong_induction_on with
  | _ n ih =>
    rw [digitsOf_eq]
    by_cases h : n < 10
    · simp [h, natVal]
    · have hd : n / 10 < n := Nat.div_lt_self (by omega) (by omega)
      simp only [h, if_false]
      rw [natVal_append_single, ih (n / 10) hd]
      omega

theorem digitsOf_lt_ten (n : Nat) : ∀ d ∈ digitsOf n, d < 10 := by
  induction n using Nat.strong_induction_on with
  | _ n ih =>
    rw [digitsOf_eq]
    by_cases h : n < 10
    · simp [h]
    · have hd : n / 10 < n := Nat.div_lt_self (by omega) (by omega)
      simp only [h, if_false]
      intro d hdm
      rcases List.mem_append.mp hdm with h' | h'
      · exact ih (n / 10) hd d h'
      · simp at h'; omega

theorem digitsOf_ne_nil (n : Nat) : digitsOf n ≠ [] := by
  rw [digitsOf_eq]
  by_cases h : n < 10 <;> simp [h]

theorem digitsOf_small {n : Nat} (h : n < 10) : digitsOf n = [n] := by
  rw [digitsOf_eq]; simp [h]

theorem digitsOf_two_digit {n : Nat} (h₁ : 10 ≤ n) (h₂ : n < 100) :
    digitsOf n = [n / 10, n % 10] := by
  rw [digitsOf_eq]
  have : ¬ n < 10 := by omega
  simp only [this, if_false]
  rw [digitsOf_small (show n / 10 < 10 by omega)]
  rfl

theorem digitVal_chDig {d : Nat} (h : d < 10) : digitVal (chDig d) = d := by
  interval_cases d <;> decide

theorem isDigitCh_chDig {d : Nat} (h : d < 10) : isDigitCh (chDig d) = true := by
  interval_cases d <;> decide

/-! ### Values of digit strings -/

theorem numVal_foldl_shift (cs : List Char) (a : Nat) :
    cs.foldl (fun x c => x * 10 + digitVal c) a = a * 10 ^ cs.length + numVal cs := by
  induction cs generalizing a with
  | nil => simp [numVal]
  | cons c cs ih =>
    show cs.foldl _ (a * 10 + digitVal c) = _
    rw [ih (a * 10 + digitVal c)]
    have hv : numVal (c :: cs) = digitVal c * 10 ^ cs.length + numVal cs := by
      show cs.foldl _ (0 * 10 + digitVal c) = _
      rw [ih (0 * 10 + digitVal c)]
      ring
    rw [hv]
    simp [List.length_cons]
    ring

theorem numVal_append (x y : List Char) :
    numVal (x ++ y) = numVal x * 10 ^ y.length + numVal y := by
  show (x ++ y).foldl _ 0 = _
  rw [List.foldl_append]
  exact numVal_foldl_shift y (numVal x)

theorem numVal_map_chDig (ds : List Nat) (h : ∀ d ∈ ds, d < 10) :
    numVal (ds.map chDig) = natVal ds := by
  have key : ∀ (l : List Nat) (a : Nat), (∀ d ∈ l, d < 10) →
      (l.map chDig).foldl (fun x c => x * 10 + digitVal c) a =
      l.foldl (fun x d => x * 10 + d) a := by
    intro l
    induction l with
    | nil => intro a _; rfl
    | cons d l ih =>
      intro a hl
      show (l.map chDig).foldl _ (a * 10 + digitVal (chDig d)) = l.foldl _ (a * 10 + d)
      rw [digitVal_chDig (hl d (by simp))]
      exact ih _ (fun d' hd' => hl d' (by simp [hd']))
  exact key ds 0 h

theorem numVal_reprChars (n : Nat) : numVal (reprChars n) = n := by
  rw [reprChars, numVal_map_chDig _ (digitsOf_lt_ten n), natVal_digitsOf]

theorem reprChars_ne_nil (n : Nat) : reprChars n ≠ [] := by
  simp [reprChars, digitsOf_ne_nil]

theorem reprChars_all_digit (n : Nat) : ∀ c ∈ reprChars n, isDigitCh c = true := by
  intro c hc
  rcases List.mem_map.mp hc with ⟨d, hd, rfl⟩
  exact isDigitCh_chDig (digitsOf_lt_ten n d hd)

theorem pad2Chars_all_digit (n : Nat) : ∀ c ∈ pad2Chars n, isDigitCh c = true := by
  intro c hc
  rw [pad2Chars] at hc
  split at hc
  · rcases List.mem_cons.mp hc with h | h
    · simp [h, isDigitCh]
    · exact reprChars_all_digit n c h
  · exact reprChars_all_digit n c hc

theorem pad2Chars_small {n : Nat} (h : n < 100) :
    pad2Chars n = (if n < 10 then ['0', chDig n] else [chDig (n / 10), chDig (n % 10)]) ∧
    (pad2Chars n).length = 2 ∧ numVal (pad2Chars n) = n := by
  by_cases h10 : n < 10
  · have hr : reprChars n = [chDig n] := by rw [reprChars, digitsOf_small h10]; rfl
    refine ⟨by simp [pad2Chars, h10, hr], by simp [pad2Chars, h10, hr], ?_⟩
    simp only [pad2Chars, h10, if_true, hr]
    show numVal ['0', chDig n] = n
    have h1 : digitVal '0' = 0 := by decide
    have h2 : digitVal (chDig n) = n := digitVal_chDig h10
    simp [numVal, List.foldl, h1, h2]
  · have hr : reprChars n = [chDig (n / 10), chDig (n % 10)] := by
      rw [reprChars, digitsOf_two_digit (by omega) h]; rfl
    refine ⟨by simp [pad2Chars, h10, hr], by simp [pad2Chars, h10, hr], ?_⟩
    simp only [pad2Chars, h10, if_false, hr]
    show numVal [chDig (n / 10), chDig (n % 10)] = n
    have h1 : digitVal (chDig (n / 10)) = n / 10 := digitVal_chDig (by omega)
    have h2 : digitVal (chDig (n % 10)) = n % 10 := digitVal_chDig (by omega)
    simp [numVal, List.foldl, h1, h2]
    omega

/-! ## The Version Model (`validate_version`, release.sh lines 134-145)

The script validates a candidate with the bash regex
`^[0-9]+\.[0-9]+\.[0-9]+(-[a-zA-Z0-9.]+)?$`.  Because a digit run must be
maximal (the next literal is `.`, `-` or end of input, none of which is a
digit), the regex is deterministic and is embedded as a structured
parser over characters; `parseVersionChars` returns the numeric triple of
the three digit runs when the input matches, `none` otherwise. -/

def parseVersionChars (cs : List Char) : Option (Nat × Nat × Nat) :=
  match cs.dropWhile isDigitCh with
  | '.' :: r2 =>
    match r2.dropWhile isDigitCh with
    | '.' :: r4 =>
      match r4.dropWhile isDigitCh with
      | [] =>
        if cs.takeWhile isDigitCh ≠ [] ∧ r2.takeWhile isDigitCh ≠ [] ∧
            r4.takeWhile isDigitCh ≠ [] then
          some (numVal (cs.takeWhile isDigitCh), numVal (r2.takeWhile isDigitCh),
            numVal (r4.takeWhile isDigitCh))
        else none
      | '-' :: lab =>
        if cs.takeWhile isDigitCh ≠ [] ∧ r2.takeWhile isDigitCh ≠ [] ∧
            r4.takeWhile isDigitCh ≠ [] ∧ lab ≠ [] ∧ lab.all isLabelCh = true then
          some (numVal (cs.takeWhile isDigitCh), numVal (r2.takeWhile isDigitCh),
            numVal (r4.takeWhile isDigitCh))
        else none
      | _ => none
    | _ => none
  | _ => none

/-- `validate_version`: the input matches the semantic-version regex. -/
def validVersion (s : String) : Bool := (parseVersionChars s.data).isSome

/-! ## The numeric encoding (`update_android_version`, release.sh lines 235-260)

`versionCode` is produced by the shell pipeline
`echo "$version" | sed (delete from the first dash on) | awk -F. '{printf "%d%02d%02d", $1, $2, $3}'`. -/

/-- The `sed` substitution deleting everything from the first `-` on. -/
def stripLabel (cs : List Char) : List Char := cs.takeWhile (fun c => c != '-')

/-- `awk -F.` field splitting on `.`. -/
def splitDots : List Char → List (List Char)
  | [] => [[]]
  | c :: cs =>
    if c = '.' then [] :: splitDots cs
    else
      match splitDots cs with
      | [] => [[c]]
      | f :: rest => (c :: f) :: rest

/-- `awk`'s numeric reading of a field: the value of its leading digit run. -/
def awkNum (cs : List Char) : Nat := numVal (cs.takeWhile isDigitCh)

/-- The character string `printf "%d%02d%02d", $1, $2, $3` emits for a
version string: the decimal form of the major field followed by the
two-digit-padded decimal forms of the minor and patch fields. -/
def codeChars (cs : List Char) : List Char :=
  let fs := splitDots (stripLabel cs)
  reprChars (awkNum (fs.getD 0 [])) ++
    pad2Chars (awkNum (fs.getD 1 [])) ++ pad2Chars (awkNum (fs.getD 2 []))

/-- The numeric value of the `versionCode` literal written into
`android/app/build.gradle`. -/
def versionCodeVal (cs : List Char) : Nat := numVal (codeChars cs)

/-! ### Structure of valid version strings -/

theorem takeWhile_append_of_all {p : Char → Bool} {a : List Char} (b : List Char)
    (h : ∀ c ∈ a, p c = true) : (a ++ b).takeWhile p = a ++ b.takeWhile p := by
  induction a with
  | nil => simp
  | cons c a ih =>
    have hc : p c = true := h c (by simp)
    simp only [List.cons_append, List.takeWhile_cons, hc, if_true]
    rw [ih (fun c' hc' => h c' (by simp [hc']))]

theorem takeWhile_all {p : Char → Bool} {a : List Char}
    (h : ∀ c ∈ a, p c = true) : a.takeWhile p = a :=
  List.takeWhile_eq_self_iff.mpr h

theorem takeWhile_cons_neg (p : Char → Bool) (c : Char) (cs : List Char)
    (h : p c = false) : (c :: cs).takeWhile p = [] := by
  simp [List.takeWhile_cons, h]

theorem takeWhile_cons_pos (p : Char → Bool) (c : Char) (cs : List Char)
    (h : p c = true) : (c :: cs).takeWhile p = c :: cs.takeWhile p := by
  simp [List.takeWhile_cons, h]

theorem splitDots_append_dot {a : List Char} (b : List Char) (h : '.' ∉ a) :
    splitDots (a ++ '.' :: b) = a :: splitDots b := by
  induction a with
  | nil => simp [splitDots]
  | cons c a ih =>
    have hc : ¬ c = '.' := fun hc => h (by simp [hc])
    have ha : '.' ∉ a := fun ha => h (by simp [ha])
    simp only [List.cons_append, splitDots, hc, if_false, List.append_eq]
    rw [ih ha]

theorem splitDots_no_dot {a : List Char} (h : '.' ∉ a) : splitDots a = [a] := by
  induction a with
  | nil => rfl
  | cons c a ih =>
    have hc : ¬ c = '.' := fun hc => h (by simp [hc])
    have ha : '.' ∉ a := fun ha => h (by simp [ha])
    simp only [splitDots, hc, if_false]
    rw [ih ha]

theorem isDigitCh_ne_dash {c : Char} (h : isDigitCh c = true) : (c != '-') = true := by
  by_cases hc : c = '-'
  · subst hc; exact absurd h (by decide)
  · exact bne_iff_ne.mpr hc

theorem isDigitCh_ne_dot {c : Char} (h : isDigitCh c = true) : c ≠ '.' := by
  intro hc; subst hc; exact absurd h (by decide)

/-- Every accepted version string decomposes into three nonempty digit runs
separated by dots, optionally followed by a dash and a nonempty label, and
the parsed triple is the value of the three runs. -/
theorem parse_decomp {cs : List Char} {M m p : Nat}
    (h : parseVersionChars cs = some (M, m, p)) :
    ∃ d1 d2 d3 rest,
      cs = d1 ++ '.' :: (d2 ++ '.' :: (d3 ++ rest)) ∧
      d1 ≠ [] ∧ d2 ≠ [] ∧ d3 ≠ [] ∧
      (∀ c ∈ d1, isDigitCh c = true) ∧ (∀ c ∈ d2, isDigitCh c = true) ∧
      (∀ c ∈ d3, isDigitCh c = true) ∧
      (rest = [] ∨ ∃ lab, rest = '-' :: lab ∧ lab ≠ [] ∧ ∀ c ∈ lab, isLabelCh c = true) ∧
      M = numVal d1 ∧ m = numVal d2 ∧ p = numVal d3 := by
  unfold parseVersionChars at h
  split at h
  case _ r2 heq1 =>
    split at h
    case _ r4 heq2 =>
      split at h
      case _ heq3 =>
        split at h
        case isTrue hcond =>
          obtain ⟨h1, h2, h3⟩ := hcond
          simp only [Option.some.injEq, Prod.mk.injEq] at h
          obtain ⟨rfl, rfl, rfl⟩ := h
          refine ⟨cs.takeWhile isDigitCh, r2.takeWhile isDigitCh, r4.takeWhile isDigitCh,
            [], ?_, h1, h2, h3, ?_, ?_, ?_, Or.inl rfl, rfl, rfl, rfl⟩
          · conv_lhs => rw [← List.takeWhile_append_dropWhile (p := isDigitCh) (l := cs)]
            rw [heq1]
            conv_lhs => rw [← List.takeWhile_append_dropWhile (p := isDigitCh) (l := r2)]
            rw [heq2]
            conv_lhs => rw [← List.takeWhile_append_dropWhile (p := isDigitCh) (l := r4)]
            rw [heq3]
          · exact fun c hc => List.mem_takeWhile_imp hc
          · exact fun c hc => List.mem_takeWhile_imp hc
          · exact fun c hc => List.mem_takeWhile_imp hc
        case isFalse => exact absurd h (by simp)
      case _ lab heq3 =>
        split at h
        case isTrue hcond =>
          obtain ⟨h1, h2, h3, h4, h5⟩ := hcond
          simp only [Option.some.injEq, Prod.mk.injEq] at h
          obtain ⟨rfl, rfl, rfl⟩ := h
          refine ⟨cs.takeWhile isDigitCh, r2.takeWhile isDigitCh, r4.takeWhile isDigitCh,
            '-' :: lab, ?_, h1, h2, h3, ?_, ?_, ?_,
            Or.inr ⟨lab, rfl, h4, List.all_eq_true.mp h5⟩, rfl, rfl, rfl⟩
          · conv_lhs => rw [← List.takeWhile_append_dropWhile (p := isDigitCh) (l := cs)]
            rw [heq1]
            conv_lhs => rw [← List.takeWhile_append_dropWhile (p := isDigitCh) (l := r2)]
            rw [heq2]
            conv_lhs => rw [← List.takeWhile_append_dropWhile (p := isDigitCh) (l := r4)]
            rw [heq3]
          · exact fun c hc => List.mem_takeWhile_imp hc
          · exact fun c hc => List.mem_takeWhile_imp hc
          · exact fun c hc => List.mem_takeWhile_imp hc
        case isFalse => exact absurd h (by simp)
      case _ => exact absurd h (by simp)
    case _ => exact absurd h (by simp)
  case _ => exact absurd h (by simp)

/-- On every accepted version string the `awk` pipeline of
`update_android_version` emits exactly `printf "%d%02d%02d"` of the parsed
numeric triple: the pre-release label never reaches the encoding. -/
theorem codeChars_of_valid {cs : List Char} {M m p : Nat}
    (h : parseVersionChars cs = some (M, m, p)) :
    codeChars cs = reprChars M ++ pad2Chars m ++ pad2Chars p := by
  obtain ⟨d1, d2, d3, rest, hcs, h1, h2, h3, hd1, hd2, hd3, hrest, hM, hm, hp⟩ :=
    parse_decomp h
  have nodash1 : ∀ c ∈ d1, (c != '-') = true := fun c hc => isDigitCh_ne_dash (hd1 c hc)
  have nodash2 : ∀ c ∈ d2, (c != '-') = true := fun c hc => isDigitCh_ne_dash (hd2 c hc)
  have nodash3 : ∀ c ∈ d3, (c != '-') = true := fun c hc => isDigitCh_ne_dash (hd3 c hc)
  have hdot : ('.' != '-') = true := by decide
  have hstrip : stripLabel cs = d1 ++ '.' :: (d2 ++ '.' :: d3) := by
    rw [hcs, stripLabel, takeWhile_append_of_all _ nodash1]
    rw [takeWhile_cons_pos (fun c => c != '-') '.' _ hdot]
    rw [takeWhile_append_of_all _ nodash2]
    rw [takeWhile_cons_pos (fun c => c != '-') '.' _ hdot]
    rw [takeWhile_append_of_all _ nodash3]
    rcases hrest with hre | ⟨lab, hre, _, _⟩
    · rw [hre]; simp
    · rw [hre, takeWhile_cons_neg (fun c => c != '-') '-' _ (by decide)]; simp
  have hfields : splitDots (stripLabel cs) = [d1, d2, d3] := by
    rw [hstrip]
    rw [splitDots_append_dot _ (fun hc => isDigitCh_ne_dot (hd1 _ hc) rfl)]
    rw [splitDots_append_dot _ (fun hc => isDigitCh_ne_dot (hd2 _ hc) rfl)]
    rw [splitDots_no_dot (fun hc => isDigitCh_ne_dot (hd3 _ hc) rfl)]
  rw [codeChars, hfields]
  have e1 : awkNum d1 = numVal d1 := by rw [awkNum, takeWhile_all hd1]
  have e2 : awkNum d2 = numVal d2 := by rw [awkNum, takeWhile_all hd2]
  have e3 : awkNum d3 = numVal d3 := by rw [awkNum, takeWhile_all hd3]
  simp only [List.getD]
  rw [show ([d1, d2, d3].get? 0).getD [] = d1 from rfl,
    show ([d1, d2, d3].get? 1).getD [] = d2 from rfl,
    show ([d1, d2, d3].get? 2).getD [] = d3 from rfl]
  rw [e1, e2, e3, hM, hm, hp]

/-- Claim C1, counterexample: `1.100.0` is well-formed, yet its derived
encoding is the digit-string concatenation `110000`, not
`1*10000 + 100*100 + 0 = 20000` as the claim's formula requires. -/
theorem c1_counterexample :
    validVersion "1.100.0" = true ∧
    parseVersionChars "1.100.0".data = some (1, 100, 0) ∧
    versionCodeVal "1.100.0".data = 110000 ∧
    versionCodeVal "1.100.0".data ≠ 1 * 10000 + 100 * 100 + 0 := by decide

/-- Claim C1 (amended): for every well-formed version input `M.m.p[-label]`
whose minor and patch components are below 100, validation succeeds and the
numeric encoding written into the platform build descriptor equals
`M*10000 + m*100 + p`, independent of the label.  (Without the bounds the
encoding is the decimal concatenation of `M` with `m` and `p` zero-padded
to at least two digits, as the counterexample `1.100.0` shows.) -/
theorem c1_encoding_eq_formula {s : String} {M m p : Nat}
    (h : parseVersionChars s.data = some (M, m, p)) (hm : m < 100) (hp : p < 100) :
    validVersion s = true ∧ versionCodeVal s.data = M * 10000 + m * 100 + p := by
  constructor
  · rw [validVersion, h]; rfl
  · rw [versionCodeVal, codeChars_of_valid h]
    obtain ⟨-, hlm, hvm⟩ := pad2Chars_small hm
    obtain ⟨-, hlp, hvp⟩ := pad2Chars_small hp
    rw [numVal_append, numVal_append, numVal_reprChars, hlm, hlp, hvm, hvp]
    ring

/-- Witness for C1's amended theorem: the spec's own example
`1.2.3-beta` validates and encodes to `10203`. -/
theorem c1_encoding_eq_formula_witness :
    validVersion "1.2.3-beta" = true ∧
    versionCodeVal "1.2.3-beta".data = 1 * 10000 + 2 * 100 + 3 :=
  c1_encoding_eq_formula (by decide) (by decide) (by decide)

/-- Claim C2: any two valid versions with the same numeric triple — whatever
their pre-release labels — receive the same derived numeric encoding: the
encoding is a function of the triple only. -/
theorem c2_encoding_function_of_triple {s₁ s₂ : String} {t : Nat × Nat × Nat}
    (h₁ : parseVersionChars s₁.data = some t) (h₂ : parseVersionChars s₂.data = some t) :
    versionCodeVal s₁.data = versionCodeVal s₂.data := by
  obtain ⟨M, m, p⟩ := t
  rw [versionCodeVal, versionCodeVal, codeChars_of_valid h₁, codeChars_of_valid h₂]

/-- Witness for C2: `1.2.3` (no label) and `1.2.3-beta` share the triple
`(1,2,3)` and the encoding `10203`. -/
theorem c2_encoding_function_of_triple_witness :
    versionCodeVal "1.2.3".data = versionCodeVal "1.2.3-beta".data :=
  @c2_encoding_function_of_triple "1.2.3" "1.2.3-beta" (1, 2, 3) (by decide) (by decide)

/-! ## Text substitutions of the Descriptor Mutator

`update_package_json` (release.sh lines 207-233) rewrites the manifest's
version field (via `jq '.version = $version'`, or the `sed` fallback
replacing the quoted field value), and `update_android_version` (lines
235-260) rewrites `versionCode [0-9]*` and `versionName ".*"` in the
platform descriptor.  `sed` substitutes the leftmost match on every
line; each file is modelled as its list of lines. -/

/-- `key` occurs as a contiguous substring. -/
def occursIn (key : List Char) : List Char → Bool
  | [] => key.isPrefixOf []
  | c :: cs => key.isPrefixOf (c :: cs) || occursIn key cs

/-- One line of the sed substitution for the pattern `KEY[0-9]*`:
at the leftmost occurrence of the literal `key`, the greedy digit run
after it is replaced by `new`. -/
def substDigits (key new : List Char) : List Char → List Char
  | [] => []
  | c :: cs =>
    if key.isPrefixOf (c :: cs) then
      key ++ new ++ ((c :: cs).drop key.length).dropWhile isDigitCh
    else c :: substDigits key new cs

/-- The suffix after the last occurrence of `q` (the whole list when `q`
is absent). -/
def afterLast (q : Char) (l : List Char) : List Char :=
  (l.reverse.takeWhile (fun c => c != q)).reverse

/-- One line of the sed substitution for the pattern `KEY.*"` (where the
literal `key` itself ends in a quote): a match needs a further quote
after `key`, the greedy `.*` extends to the last quote of the line, and
the matched region is replaced by `key ++ new ++ '"'`. -/
def substQuoted (key new : List Char) : List Char → List Char
  | [] => []
  | c :: cs =>
    if key.isPrefixOf (c :: cs) && ((c :: cs).drop key.length).contains '"' then
      key ++ new ++ '"' :: afterLast '"' ((c :: cs).drop key.length)
    else c :: substQuoted key new cs

/-! ### Generic lemmas about occurrences and the substitutions -/

theorem isPrefixOf_append_stable (key u X Y : List Char) (h : key.length ≤ u.length) :
    key.isPrefixOf (u ++ X) = key.isPrefixOf (u ++ Y) := by
  have hx : ∀ Z : List Char, key.isPrefixOf (u ++ Z) = true ↔ key = u.take key.length := by
    intro Z
    rw [List.isPrefixOf_iff_prefix, List.prefix_iff_eq_take, List.take_append_of_le_length h]
  by_cases hp : key = u.take key.length
  · rw [(hx X).mpr hp, (hx Y).mpr hp]
  · have e1 : key.isPrefixOf (u ++ X) = false := by
      cases hbx : key.isPrefixOf (u ++ X)
      · rfl
      · exact absurd ((hx X).mp hbx) hp
    have e2 : key.isPrefixOf (u ++ Y) = false := by
      cases hby : key.isPrefixOf (u ++ Y)
      · rfl
      · exact absurd ((hx Y).mp hby) hp
    rw [e1, e2]

theorem occursIn_cons (key : List Char) (c : Char) (cs : List Char) :
    occursIn key (c :: cs) = (key.isPrefixOf (c :: cs) || occursIn key cs) := rfl

theorem occursIn_append_left {key : List Char} (x z : List Char)
    (h : occursIn key x = true) : occursIn key (x ++ z) = true := by
  induction x with
  | nil =>
    have hk : key = [] := List.prefix_nil.mp (List.isPrefixOf_iff_prefix.mp h)
    subst hk
    cases z with
    | nil => exact h
    | cons c cs => simp [occursIn, List.isPrefixOf]
  | cons c cs ih =>
    rw [occursIn_cons] at h
    rcases Bool.or_eq_true_iff.mp h with hpre | hocc
    · have hp2 : key.isPrefixOf (c :: (cs ++ z)) = true :=
        List.isPrefixOf_iff_prefix.mpr
          ((List.isPrefixOf_iff_prefix.mp hpre).trans (List.prefix_append _ z))
      rw [show ((c :: cs) ++ z : List Char) = c :: (cs ++ z) from rfl, occursIn_cons, hp2]
      rfl
    · rw [show ((c :: cs) ++ z : List Char) = c :: (cs ++ z) from rfl, occursIn_cons, ih hocc]
      simp

theorem occursIn_append_right (key x z : List Char)
    (h : occursIn key z = true) : occursIn key (x ++ z) = true := by
  induction x with
  | nil => exact h
  | cons c cs ih =>
    rw [show ((c :: cs) ++ z : List Char) = c :: (cs ++ z) from rfl, occursIn_cons, ih]
    simp

theorem occursIn_sub {key x : List Char} (h : occursIn key x = true) :
    ∀ c ∈ key, c ∈ x := by
  induction x with
  | nil =>
    have hk : key = [] := List.prefix_nil.mp (List.isPrefixOf_iff_prefix.mp h)
    subst hk
    intro c hc
    exact absurd hc (List.not_mem_nil c)
  | cons c cs ih =>
    rw [occursIn_cons] at h
    rcases Bool.or_eq_true_iff.mp h with hpre | hocc
    · obtain ⟨t, ht⟩ := List.isPrefixOf_iff_prefix.mp hpre
      intro c' hc'
      rw [← ht]
      exact List.mem_append_left t hc'
    · intro c' hc'
      exact List.mem_cons_of_mem c (ih hocc c' hc')

/-- A block of characters foreign to the key blocks occurrences: the key
cannot occur in `mid ++ y` unless it occurs in `y`. -/
theorem not_occursIn_disj_append {key : List Char} (mid y : List Char)
    (hkey : key ≠ []) (hdisj : ∀ c ∈ mid, c ∉ key)
    (hy : occursIn key y = false) : occursIn key (mid ++ y) = false := by
  induction mid with
  | nil => exact hy
  | cons m ms ih =>
    obtain ⟨k0, kt, hk⟩ := List.exists_cons_of_ne_nil hkey
    have hpre : key.isPrefixOf (m :: (ms ++ y)) = false := by
      cases hb : key.isPrefixOf (m :: (ms ++ y))
      · rfl
      · exfalso
        obtain ⟨t, ht⟩ := List.isPrefixOf_iff_prefix.mp hb
        rw [hk] at ht
        have hk0 : k0 = m := by
          have := congrArg List.head? ht
          simpa using this
        have hm : m ∈ key := by
          rw [hk, ← hk0]
          exact List.mem_cons_self k0 kt
        exact hdisj m (List.mem_cons_self m ms) hm
    rw [show ((m :: ms) ++ y : List Char) = m :: (ms ++ y) from rfl, occursIn_cons, hpre,
      ih (fun c hc => hdisj c (List.mem_cons_of_mem m hc))]
    rfl

/-- No occurrence reaches across a nonempty block of characters foreign to
the key: if the key occurs neither in `x` nor in `y`, it does not occur in
`x ++ mid ++ y`. -/
theorem not_occursIn_append_block {key : List Char} (mid x y : List Char)
    (hkey : key ≠ []) (hmid : mid ≠ []) (hdisj : ∀ c ∈ mid, c ∉ key)
    (hx : occursIn key x = false) (hy : occursIn key y = false) :
    occursIn key (x ++ mid ++ y) = false := by
  rw [List.append_assoc]
  revert hx
  induction x with
  | nil => intro _; exact not_occursIn_disj_append mid y hkey hdisj hy
  | cons c x' ih =>
    intro hx
    rw [occursIn_cons] at hx
    have hx' : occursIn key x' = false := by
      cases hb : occursIn key x'
      · rfl
      · rw [hb] at hx; simp at hx
    have hxpre : key.isPrefixOf (c :: x') = false := by
      cases hb : key.isPrefixOf (c :: x')
      · rfl
      · rw [hb] at hx; simp at hx
    have hpre : key.isPrefixOf (c :: (x' ++ (mid ++ y))) = false := by
      cases hb : key.isPrefixOf (c :: (x' ++ (mid ++ y)))
      · rfl
      · exfalso
        have hkpre : key <+: (c :: x') ++ (mid ++ y) :=
          List.isPrefixOf_iff_prefix.mp hb
        by_cases hlen : key.length ≤ (c :: x').length
        · have hple : key <+: c :: x' :=
            List.prefix_of_prefix_length_le hkpre (List.prefix_append _ _) hlen
          rw [List.isPrefixOf_iff_prefix.mpr hple] at hxpre
          exact Bool.noConfusion hxpre
        · have hcx : (c :: x') <+: key :=
            List.prefix_of_prefix_length_le (List.prefix_append _ _) hkpre (by omega)
          obtain ⟨key2, hsplit⟩ := hcx
          have hk2 : key2 ≠ [] := by
            intro hnil
            rw [hnil, List.append_nil] at hsplit
            rw [← hsplit] at hlen
            exact hlen le_rfl
          obtain ⟨t, ht⟩ := hkpre
          rw [← hsplit, List.append_assoc] at ht
          have ht1 : x' ++ (key2 ++ t) = x' ++ (mid ++ y) := by
            have := congrArg List.tail ht
            simpa using this
          have ht2 : key2 ++ t = mid ++ y := by
            have := congrArg (List.drop x'.length) ht1
            rwa [List.drop_left, List.drop_left] at this
          obtain ⟨m0, ms, rfl⟩ := List.exists_cons_of_ne_nil hmid
          obtain ⟨k20, k2t, rfl⟩ := List.exists_cons_of_ne_nil hk2
          have hk20 : k20 = m0 := by
            have := congrArg List.head? ht2
            simpa using this
          have hm0 : m0 ∈ key := by
            rw [← hsplit, ← hk20]
            exact List.mem_append_right _ (List.mem_cons_self k20 k2t)
          exact hdisj m0 (List.mem_cons_self m0 ms) hm0
    rw [show ((c :: x') ++ (mid ++ y) : List Char) = c :: (x' ++ (mid ++ y)) from rfl,
      occursIn_cons, hpre, ih hx']
    rfl

theorem dropWhile_append_of_all {p : Char → Bool} {a : List Char} (y : List Char)
    (h : ∀ c ∈ a, p c = true) : (a ++ y).dropWhile p = y.dropWhile p := by
  induction a with
  | nil => rfl
  | cons c a ih =>
    have hc : p c = true := h c (by simp)
    rw [List.cons_append, List.dropWhile_cons, if_pos hc]
    exact ih (fun c' hc' => h c' (by simp [hc']))

theorem dropWhile_idem (p : Char → Bool) (l : List Char) :
    (l.dropWhile p).dropWhile p = l.dropWhile p := by
  induction l with
  | nil => rfl
  | cons c cs ih =>
    by_cases h : p c = true
    · rw [List.dropWhile_cons, if_pos h]
      exact ih
    · rw [List.dropWhile_cons, if_neg h, List.dropWhile_cons, if_neg h]

theorem substDigits_cons_neg {key : List Char} (new : List Char) {c : Char} {cs : List Char}
    (h : key.isPrefixOf (c :: cs) = false) :
    substDigits key new (c :: cs) = c :: substDigits key new cs := by
  simp [substDigits, h]

theorem substDigits_key_append (key new : List Char) (hkey : key ≠ []) (X : List Char) :
    substDigits key new (key ++ X) = key ++ new ++ X.dropWhile isDigitCh := by
  obtain ⟨k0, kt, rfl⟩ := List.exists_cons_of_ne_nil hkey
  have hpre : (k0 :: kt).isPrefixOf ((k0 :: kt) ++ X) = true :=
    List.isPrefixOf_iff_prefix.mpr (List.prefix_append _ X)
  show substDigits (k0 :: kt) new (k0 :: (kt ++ X)) = _
  rw [show substDigits (k0 :: kt) new (k0 :: (kt ++ X)) =
      (k0 :: kt) ++ new ++ (((k0 :: kt) ++ X).drop (k0 :: kt).length).dropWhile isDigitCh
    from by simp [substDigits, hpre]]
  rw [List.drop_left]

theorem substDigits_not_occurs (key new l : List Char)
    (h : occursIn key l = false) : substDigits key new l = l := by
  induction l with
  | nil => rfl
  | cons c cs ih =>
    have h1 : key.isPrefixOf (c :: cs) = false := by
      cases hb : key.isPrefixOf (c :: cs)
      · rfl
      · rw [show occursIn key (c :: cs) = (key.isPrefixOf (c :: cs) || occursIn key cs)
          from rfl, hb] at h
        simp at h
    have h2 : occursIn key cs = false := by
      cases hb : occursIn key cs
      · rfl
      · rw [show occursIn key (c :: cs) = (key.isPrefixOf (c :: cs) || occursIn key cs)
          from rfl, hb] at h
        simp at h
    rw [substDigits_cons_neg new h1, ih h2]

/-- Leftmost-match characterisation of `substDigits`: either the key never
matches and the line is unchanged, or the line splits at the leftmost
occurrence and the substitution rewrites exactly there — uniformly in
whatever follows the occurrence. -/
theorem substDigits_spec (key new : List Char) (hkey : key ≠ []) (l : List Char) :
    substDigits key new l = l ∨
    ∃ a b, l = a ++ key ++ b ∧
      substDigits key new l = a ++ key ++ new ++ b.dropWhile isDigitCh ∧
      ∀ X, substDigits key new (a ++ key ++ X) = a ++ key ++ new ++ X.dropWhile isDigitCh := by
  induction l with
  | nil => exact Or.inl rfl
  | cons c cs ih =>
    cases hp : key.isPrefixOf (c :: cs) with
    | true =>
      right
      obtain ⟨b, hb⟩ := List.isPrefixOf_iff_prefix.mp hp
      refine ⟨[], b, by simp [hb.symm], ?_, ?_⟩
      · rw [show c :: cs = key ++ b from hb.symm, substDigits_key_append key new hkey b]
        simp
      · intro X
        rw [show ([] : List Char) ++ key ++ X = key ++ X from by simp,
          substDigits_key_append key new hkey X]
        simp
    | false =>
      have heq : substDigits key new (c :: cs) = c :: substDigits key new cs :=
        substDigits_cons_neg new hp
      rcases ih with h0 | ⟨a, b, hab, hsub, hall⟩
      · exact Or.inl (by rw [heq, h0])
      · right
        have haux : c :: cs = (c :: a) ++ key ++ b := by simp [hab]
        refine ⟨c :: a, b, haux, by rw [heq, hsub]; simp, ?_⟩
        intro X
        have hlen : key.length ≤ ((c :: a) ++ key).length := by
          simp
          omega
        have hg : key.isPrefixOf ((c :: a) ++ key ++ X) = false := by
          rw [isPrefixOf_append_stable key ((c :: a) ++ key) X b hlen]
          rw [← haux]
          exact hp
        have hg' : key.isPrefixOf (c :: (a ++ key ++ X)) = false := by
          rw [show (c :: (a ++ key ++ X) : List Char) = (c :: a) ++ key ++ X from by simp]
          exact hg
        rw [show ((c :: a) ++ key ++ X : List Char) = c :: (a ++ key ++ X) from by simp,
          substDigits_cons_neg new hg', hall X]
        simp

theorem substDigits_idem (key new : List Char) (hkey : key ≠ [])
    (hnew : ∀ c ∈ new, isDigitCh c = true) (l : List Char) :
    substDigits key new (substDigits key new l) = substDigits key new l := by
  rcases substDigits_spec key new hkey l with h0 | ⟨a, b, hab, hsub, hall⟩
  · rw [h0, h0]
  · rw [hsub,
      show (a ++ key ++ new ++ b.dropWhile isDigitCh : List Char) =
        a ++ key ++ (new ++ b.dropWhile isDigitCh) from by simp,
      hall (new ++ b.dropWhile isDigitCh),
      dropWhile_append_of_all (b.dropWhile isDigitCh) hnew, dropWhile_idem]
    simp

/-! ### The quoted-field substitution -/

theorem afterLast_no_q (q : Char) (l : List Char) :
    ∀ c ∈ afterLast q l, (c != q) = true := by
  intro c hc
  rw [afterLast] at hc
  have hc2 : c ∈ List.takeWhile (fun c => c != q) l.reverse := List.mem_reverse.mp hc
  have hres := List.mem_takeWhile_imp hc2
  exact hres

theorem afterLast_append (q : Char) (x y : List Char)
    (hy : ∀ c ∈ y, (c != q) = true) : afterLast q (x ++ q :: y) = y := by
  rw [afterLast]
  rw [show (x ++ q :: y).reverse = y.reverse ++ q :: x.reverse from by simp]
  rw [takeWhile_append_of_all _ (fun c hc => hy c (List.mem_reverse.mp hc))]
  rw [takeWhile_cons_neg (fun c => c != q) q _ (by simp)]
  simp

theorem afterLast_suffix (q : Char) (l : List Char) :
    ∃ u, l = u ++ afterLast q l := by
  refine ⟨(l.reverse.dropWhile (fun c => c != q)).reverse, ?_⟩
  rw [afterLast, ← List.reverse_append, List.takeWhile_append_dropWhile,
    List.reverse_reverse]

theorem substQuoted_cons_neg {key : List Char} (new : List Char) {c : Char} {cs : List Char}
    (h : (key.isPrefixOf (c :: cs) && ((c :: cs).drop key.length).contains '"') = false) :
    substQuoted key new (c :: cs) = c :: substQuoted key new cs := by
  simp only [substQuoted, h]
  rfl

theorem substQuoted_cons_pos {key : List Char} (new : List Char) {c : Char} {cs : List Char}
    (h : (key.isPrefixOf (c :: cs) && ((c :: cs).drop key.length).contains '"') = true) :
    substQuoted key new (c :: cs) =
      key ++ new ++ '"' :: afterLast '"' ((c :: cs).drop key.length) := by
  simp only [substQuoted]
  rw [if_pos h]

theorem substQuoted_key_append (key new : List Char) (hkey : key ≠ []) (X : List Char)
    (hX : X.contains '"' = true) :
    substQuoted key new (key ++ X) = key ++ new ++ '"' :: afterLast '"' X := by
  obtain ⟨k0, kt, rfl⟩ := List.exists_cons_of_ne_nil hkey
  have hpre : (k0 :: kt).isPrefixOf (k0 :: (kt ++ X)) = true :=
    List.isPrefixOf_iff_prefix.mpr (List.prefix_append (k0 :: kt) X)
  have hdrop : (k0 :: (kt ++ X)).drop (k0 :: kt).length = X := List.drop_left (k0 :: kt) X
  have hguard : ((k0 :: kt).isPrefixOf (k0 :: (kt ++ X)) &&
      ((k0 :: (kt ++ X)).drop (k0 :: kt).length).contains '"') = true := by
    rw [hpre, hdrop, hX]
    rfl
  show substQuoted (k0 :: kt) new (k0 :: (kt ++ X)) = _
  rw [substQuoted_cons_pos new hguard, hdrop]

theorem substQuoted_not_occurs (key new l : List Char)
    (h : occursIn key l = false) : substQuoted key new l = l := by
  induction l with
  | nil => rfl
  | cons c cs ih =>
    rw [occursIn_cons] at h
    have h1 : key.isPrefixOf (c :: cs) = false := by
      cases hb : key.isPrefixOf (c :: cs)
      · rfl
      · rw [hb] at h; simp at h
    have h2 : occursIn key cs = false := by
      cases hb : occursIn key cs
      · rfl
      · rw [hb] at h; simp at h
    rw [substQuoted_cons_neg new (by rw [h1]; rfl), ih h2]

/-- Leftmost-match characterisation of `substQuoted`, for a key that itself
ends in a quote (as both quoted sed patterns do): either no position
matches and the line is unchanged, or the line splits at the leftmost
occurrence of the key that is followed by a further quote, and the
substitution rewrites exactly there — uniformly in the tail. -/
theorem substQuoted_spec (key new : List Char) (hq : ∃ k1, key = k1 ++ ['"'])
    (l : List Char) :
    substQuoted key new l = l ∨
    ∃ a b, l = a ++ key ++ b ∧ b.contains '"' = true ∧
      substQuoted key new l = a ++ key ++ new ++ '"' :: afterLast '"' b ∧
      ∀ X, X.contains '"' = true →
        substQuoted key new (a ++ key ++ X) = a ++ key ++ new ++ '"' :: afterLast '"' X := by
  have hkey : key ≠ [] := by
    obtain ⟨k1, rfl⟩ := hq
    simp
  induction l with
  | nil => exact Or.inl rfl
  | cons c cs ih =>
    cases hguard : (key.isPrefixOf (c :: cs) && ((c :: cs).drop key.length).contains '"') with
    | true =>
      right
      obtain ⟨hpre, hcont⟩ := Bool.and_eq_true_iff.mp hguard
      obtain ⟨b, hb⟩ := List.isPrefixOf_iff_prefix.mp hpre
      have hdrop : (c :: cs).drop key.length = b := by
        rw [← hb, List.drop_left]
      rw [hdrop] at hcont
      refine ⟨[], b, by simp [hb.symm], hcont, ?_, ?_⟩
      · rw [show c :: cs = key ++ b from hb.symm,
          substQuoted_key_append key new hkey b hcont]
        simp
      · intro X hX
        rw [show ([] : List Char) ++ key ++ X = key ++ X from by simp,
          substQuoted_key_append key new hkey X hX]
        simp
    | false =>
      have heq : substQuoted key new (c :: cs) = c :: substQuoted key new cs :=
        substQuoted_cons_neg new hguard
      rcases ih with h0 | ⟨a, b, hab, hbq, hsub, hall⟩
      · exact Or.inl (by rw [heq, h0])
      · right
        have haux : c :: cs = (c :: a) ++ key ++ b := by simp [hab]
        -- under a later genuine match, the head guard can only have failed
        -- on its prefix component: a successful head prefix would see the
        -- quote ending the later key occurrence
        have hpre : key.isPrefixOf (c :: cs) = false := by
          cases hb : key.isPrefixOf (c :: cs)
          · rfl
          · exfalso
            obtain ⟨k1, hk1⟩ := hq
            obtain ⟨t, ht⟩ := List.isPrefixOf_iff_prefix.mp hb
            have hcont : ((c :: cs).drop key.length).contains '"' = true := by
              have hshape : c :: cs = (c :: (a ++ k1)) ++ '"' :: b := by
                rw [haux, hk1]
                simp
              have hlen2 : key.length ≤ (c :: (a ++ k1)).length := by
                rw [hk1]
                simp
              rw [hshape, List.drop_append_of_le_length hlen2]
              simp
            rw [hb, hcont] at hguard
            exact Bool.noConfusion hguard
        refine ⟨c :: a, b, haux, hbq, by rw [heq, hsub]; simp, ?_⟩
        intro X hX
        have hlen : key.length ≤ ((c :: a) ++ key).length := by
          simp
          omega
        have hg : key.isPrefixOf ((c :: a) ++ key ++ X) = false := by
          rw [isPrefixOf_append_stable key ((c :: a) ++ key) X b hlen]
          rw [← haux]
          exact hpre
        have hg' : (key.isPrefixOf (c :: (a ++ key ++ X)) &&
            ((c :: (a ++ key ++ X)).drop key.length).contains '"') = false := by
          rw [show (c :: (a ++ key ++ X) : List Char) = (c :: a) ++ key ++ X from by simp,
            hg]
          rfl
        rw [show ((c :: a) ++ key ++ X : List Char) = c :: (a ++ key ++ X) from by simp,
          substQuoted_cons_neg new hg', hall X hX]
        simp

theorem substQuoted_idem (key new : List Char) (hq : ∃ k1, key = k1 ++ ['"'])
    (l : List Char) :
    substQuoted key new (substQuoted key new l) = substQuoted key new l := by
  rcases substQuoted_spec key new hq l with h0 | ⟨a, b, hab, hbq, hsub, hall⟩
  · rw [h0, h0]
  · rw [hsub,
      show (a ++ key ++ new ++ '"' :: afterLast '"' b : List Char) =
        a ++ key ++ (new ++ '"' :: afterLast '"' b) from by simp,
      hall (new ++ '"' :: afterLast '"' b) (by simp),
      afterLast_append '"' new (afterLast '"' b) (afterLast_no_q '"' b)]
    simp

/-! ### The tracked descriptor files and their mutation -/

/-- Literal of the sed pattern `versionCode [0-9]*`. -/
def keyVC : List Char := "versionCode ".data

/-- Literal of the sed pattern `versionName ".*"`. -/
def keyVN : List Char := "versionName \"".data

/-- Literal of the package.json fallback sed pattern for the version field. -/
def keyPkg : List Char := "\"version\": \"".data

/-- `update_package_json`: set the manifest's version field to the new
version string.  The `jq` filter `.version = $version` and the `sed`
fallback both rewrite exactly this quoted field; the effect is embedded
as the quoted-field substitution on every line. -/
def updatePkg (v : String) (pkg : List (List Char)) : List (List Char) :=
  pkg.map (substQuoted keyPkg v.data)

/-- `update_android_version`: the `versionCode` sed pass followed by the
`versionName` sed pass over the platform descriptor. -/
def updateGradle (v : String) (g : List (List Char)) : List (List Char) :=
  (g.map (substDigits keyVC (codeChars v.data))).map (substQuoted keyVN v.data)

/-- The two descriptor files tracked by the release pipeline, as lines. -/
structure Files where
  pkg : List (List Char)
  gradle : List (List Char)
deriving DecidableEq

/-- The Descriptor Mutator: apply the new version to both tracked files. -/
def mutateFiles (v : String) (fs : Files) : Files :=
  { pkg := updatePkg v fs.pkg, gradle := updateGradle v fs.gradle }

/-! ### Character facts about valid versions and the emitted code -/

theorem valid_chars {s : String} (h : validVersion s = true) :
    ∀ c ∈ s.data, isDigitCh c = true ∨ c = '.' ∨ c = '-' ∨ isLabelCh c = true := by
  rw [validVersion] at h
  obtain ⟨⟨M, m, p⟩, ht⟩ := Option.isSome_iff_exists.mp h
  obtain ⟨d1, d2, d3, rest, hcs, -, -, -, hd1, hd2, hd3, hrest, -, -, -⟩ :=
    parse_decomp ht
  intro c hc
  rw [hcs] at hc
  simp only [List.mem_append, List.mem_cons] at hc
  rcases hc with h1 | h1 | h1 | h1 | h1 | h1
  · exact Or.inl (hd1 c h1)
  · exact Or.inr (Or.inl h1)
  · exact Or.inl (hd2 c h1)
  · exact Or.inr (Or.inl h1)
  · exact Or.inl (hd3 c h1)
  · rcases hrest with hre | ⟨lab, hre, -, hlab⟩
    · rw [hre] at h1
      exact absurd h1 (List.not_mem_nil c)
    · rw [hre] at h1
      rcases List.mem_cons.mp h1 with h2 | h2
      · exact Or.inr (Or.inr (Or.inl h2))
      · exact Or.inr (Or.inr (Or.inr (hlab c h2)))

theorem valid_no_quote {s : String} (h : validVersion s = true) :
    ∀ c ∈ s.data, (c != '"') = true := by
  intro c hc
  refine bne_iff_ne.mpr (fun he => ?_)
  rcases valid_chars h c hc with h1 | h1 | h1 | h1
  · rw [he] at h1; exact absurd h1 (by decide)
  · rw [he] at h1; exact absurd h1 (by decide)
  · rw [he] at h1; exact absurd h1 (by decide)
  · rw [he] at h1; exact absurd h1 (by decide)

/-- A valid version string never contains the `versionCode ` literal
(it has no space at all). -/
theorem valid_not_occ_keyVC {s : String} (h : validVersion s = true) :
    occursIn keyVC s.data = false := by
  cases ho : occursIn keyVC s.data
  · rfl
  · exfalso
    have hsp : ' ' ∈ s.data := occursIn_sub ho ' ' (by decide)
    rcases valid_chars h ' ' hsp with h1 | h1 | h1 | h1
    · exact absurd h1 (by decide)
    · exact absurd h1 (by decide)
    · exact absurd h1 (by decide)
    · exact absurd h1 (by decide)

theorem codeChars_all_digit (cs : List Char) :
    ∀ c ∈ codeChars cs, isDigitCh c = true := by
  intro c hc
  rw [codeChars] at hc
  simp only [List.mem_append] at hc
  rcases hc with (h1 | h1) | h1
  · exact reprChars_all_digit _ c h1
  · exact pad2Chars_all_digit _ c h1
  · exact pad2Chars_all_digit _ c h1

theorem codeChars_ne_nil (cs : List Char) : codeChars cs ≠ [] := by
  rw [codeChars]
  intro hnil
  rcases List.append_eq_nil.mp hnil with ⟨h1, -⟩
  rcases List.append_eq_nil.mp h1 with ⟨h2, -⟩
  exact reprChars_ne_nil _ h2

/-- The `versionCode ` literal has no quote, the `versionName "` literal
has no digit, and a digit never occurs in the `versionName "` literal. -/
theorem keyVC_no_quote : ∀ c ∈ keyVC, c ≠ '"' := by decide

theorem keyVN_no_digit : ∀ c ∈ keyVN, isDigitCh c = false := by decide

theorem keyVN_split : ∃ k1, keyVN = k1 ++ ['"'] := ⟨"versionName ".data, by decide⟩

theorem keyPkg_split : ∃ k1, keyPkg = k1 ++ ['"'] := ⟨"\"version\": ".data, by decide⟩

theorem keyVC_ne_nil : keyVC ≠ [] := by decide

theorem keyVN_ne_nil : keyVN ≠ [] := by decide

/-! ### Idempotence of the Descriptor Mutator (claim C6) -/

/-- A line of the manifest is stable under a second version-field pass. -/
theorem pkgLine_idem (v : String) (line : List Char) :
    substQuoted keyPkg v.data (substQuoted keyPkg v.data line) =
      substQuoted keyPkg v.data line :=
  substQuoted_idem keyPkg v.data keyPkg_split line

/-- A line of the platform descriptor that does not carry both version
fields at once is stable under a second versionCode-then-versionName
pass. -/
theorem gradleLine_idem (v : String) (hv : validVersion v = true) (line : List Char)
    (hline : occursIn keyVC line = false ∨ occursIn keyVN line = false) :
    substQuoted keyVN v.data (substDigits keyVC (codeChars v.data)
      (substQuoted keyVN v.data (substDigits keyVC (codeChars v.data) line))) =
    substQuoted keyVN v.data (substDigits keyVC (codeChars v.data) line) := by
  rcases hline with hC | hVN
  · -- no versionCode literal anywhere: the digit pass is the identity
    have hA : substDigits keyVC (codeChars v.data) line = line :=
      substDigits_not_occurs _ _ _ hC
    rw [hA]
    rcases substQuoted_spec keyVN v.data keyVN_split line with h0 | ⟨a, b, hab, hbq, hsub, -⟩
    · rw [h0, hA, h0]
    · -- the quoted pass rewrote the line; the rewritten line still has no
      -- versionCode literal, so the digit pass stays the identity
      obtain ⟨k1, hk1⟩ := keyVN_split
      have hline_shape : line = (a ++ k1) ++ ('"' :: b) := by
        rw [hab, hk1]
        simp
      have hC2 : occursIn keyVC (substQuoted keyVN v.data line) = false := by
        rw [hsub]
        have hshape : (a ++ keyVN ++ v.data ++ '"' :: afterLast '"' b : List Char) =
            (a ++ k1) ++ ['"'] ++ (v.data ++ ['"'] ++ afterLast '"' b) := by
          rw [hk1]
          simp
        rw [hshape]
        have hx : occursIn keyVC (a ++ k1) = false := by
          cases hb : occursIn keyVC (a ++ k1)
          · rfl
          · exfalso
            have hocc : occursIn keyVC line = true := by
              rw [hline_shape]
              exact occursIn_append_left _ _ hb
            rw [hocc] at hC
            exact Bool.noConfusion hC
        have hyy : occursIn keyVC (afterLast '"' b) = false := by
          cases hb : occursIn keyVC (afterLast '"' b)
          · rfl
          · exfalso
            obtain ⟨u, hu⟩ := afterLast_suffix '"' b
            have hoccb : occursIn keyVC b = true := by
              rw [hu]
              exact occursIn_append_right _ _ _ hb
            have hocc : occursIn keyVC line = true := by
              rw [hline_shape]
              exact occursIn_append_right _ _ _
                (show occursIn keyVC ('"' :: b) = true from
                  occursIn_append_right keyVC ['"'] b hoccb)
            rw [hocc] at hC
            exact Bool.noConfusion hC
        have hy : occursIn keyVC (v.data ++ ['"'] ++ afterLast '"' b) = false :=
          not_occursIn_append_block ['"'] v.data (afterLast '"' b) keyVC_ne_nil
            (by decide) (by decide) (valid_not_occ_keyVC hv) hyy
        exact not_occursIn_append_block ['"'] (a ++ k1)
          (v.data ++ ['"'] ++ afterLast '"' b) keyVC_ne_nil (by decide) (by decide) hx hy
      rw [substDigits_not_occurs _ _ _ hC2]
      exact substQuoted_idem keyVN v.data keyVN_split line
  · -- no versionName literal anywhere: the quoted pass is the identity,
    -- before and after the digit pass
    have hVN2 : occursIn keyVN (substDigits keyVC (codeChars v.data) line) = false := by
      rcases substDigits_spec keyVC (codeChars v.data) keyVC_ne_nil line with
        h0 | ⟨a, b, hab, hsub, -⟩
      · rw [h0]; exact hVN
      · rw [hsub,
          show (a ++ keyVC ++ codeChars v.data ++ b.dropWhile isDigitCh : List Char) =
            (a ++ keyVC) ++ codeChars v.data ++ b.dropWhile isDigitCh from by simp]
        have hline_shape : line = (a ++ keyVC) ++ b := by
          rw [hab]
        have hx : occursIn keyVN (a ++ keyVC) = false := by
          cases hb : occursIn keyVN (a ++ keyVC)
          · rfl
          · exfalso
            have hocc : occursIn keyVN line = true := by
              rw [hline_shape]
              exact occursIn_append_left _ _ hb
            rw [hocc] at hVN
            exact Bool.noConfusion hVN
        have hy : occursIn keyVN (b.dropWhile isDigitCh) = false := by
          cases hb : occursIn keyVN (b.dropWhile isDigitCh)
          · rfl
          · exfalso
            obtain ⟨u, hu⟩ := (List.dropWhile_suffix isDigitCh :
              b.dropWhile isDigitCh <:+ b)
            have hoccb : occursIn keyVN b = true := by
              rw [← hu]
              exact occursIn_append_right _ _ _ hb
            have hocc : occursIn keyVN line = true := by
              rw [hline_shape]
              exact occursIn_append_right _ _ _ hoccb
            rw [hocc] at hVN
            exact Bool.noConfusion hVN
        have hdisj : ∀ c ∈ codeChars v.data, c ∉ keyVN := by
          intro c hc hmem
          have h1 := codeChars_all_digit v.data c hc
          have h2 := keyVN_no_digit c hmem
          rw [h1] at h2
          exact Bool.noConfusion h2
        exact not_occursIn_append_block (codeChars v.data) (a ++ keyVC)
          (b.dropWhile isDigitCh) keyVN_ne_nil (codeChars_ne_nil _) hdisj hx hy
    rw [substQuoted_not_occurs _ _ _ hVN2,
      substDigits_idem keyVC (codeChars v.data) keyVC_ne_nil (codeChars_all_digit _) line,
      substQuoted_not_occurs _ _ _ hVN2]

/-- Claim C6: for every valid version, applying the descriptor mutation
(manifest version field; platform descriptor's numeric and version
fields) a second time with the same version leaves both files' contents
identical to their state after the first application.  The platform
descriptor is assumed to keep its two version fields on separate lines,
as the spec's descriptor layout does. -/
theorem c6_mutation_idempotent (v : String) (fs : Files) (hv : validVersion v = true)
    (hg : ∀ line ∈ fs.gradle,
      occursIn keyVC line = false ∨ occursIn keyVN line = false) :
    mutateFiles v (mutateFiles v fs) = mutateFiles v fs := by
  have hpkg : updatePkg v (updatePkg v fs.pkg) = updatePkg v fs.pkg := by
    rw [updatePkg, updatePkg, List.map_map]
    exact List.map_congr_left (fun line _ => by
      simpa [Function.comp] using pkgLine_idem v line)
  have hgrad : updateGradle v (updateGradle v fs.gradle) = updateGradle v fs.gradle := by
    rw [updateGradle, updateGradle, List.map_map, List.map_map, List.map_map,
      List.map_map]
    exact List.map_congr_left (fun line hl => by
      simpa [Function.comp] using gradleLine_idem v hv line (hg line hl))
  show Files.mk (updatePkg v (updatePkg v fs.pkg))
      (updateGradle v (updateGradle v fs.gradle)) =
    Files.mk (updatePkg v fs.pkg) (updateGradle v fs.gradle)
  rw [hpkg, hgrad]

/-- Witness for C6 on a concrete manifest and descriptor. -/
theorem c6_mutation_idempotent_witness :
    mutateFiles "1.2.3" (mutateFiles "1.2.3" (Files.mk
      [" \"name\": \"nativebridge\",".data, " \"version\": \"0.0.1\",".data]
      [" versionCode 1".data, " versionName \"0.0.1\"".data])) =
    mutateFiles "1.2.3" (Files.mk
      [" \"name\": \"nativebridge\",".data, " \"version\": \"0.0.1\",".data]
      [" versionCode 1".data, " versionName \"0.0.1\"".data]) :=
  c6_mutation_idempotent "1.2.3" _ (by decide) (by decide)

/-! ## The release pipeline (`perform_release` and `main`)

The script is a straight-line `set -e` pipeline; its effect is embedded
as a pure function from the parsed configuration, the ambient
environment (tool availability, repository inspection results, prompt
replies, verification results, and the exit codes of the bare git
commands the publisher runs) and the repository state to a final state,
a process exit code, the reported messages and an event trace. -/

/-- Flags and version parsed from the command line (`main`). -/
structure Cfg where
  version : String
  skipTests : Bool
  skipBuild : Bool
  prerelease : Bool
  dryRun : Bool
  force : Bool
deriving DecidableEq

/-- What one invocation observes from its environment.  External git
commands invoked bare under `set -e` are modelled by their exit codes
(`0` = success); `npm test` and `gradlew` are wrapped in `if`, so only
success or failure is observable. -/
structure Env where
  gitInstalled : Bool
  nodeInstalled : Bool
  jqInstalled : Bool
  inGitRepo : Bool
  dirty : Bool
  branch : String
  replyDirty : Bool
  replyBranch : Bool
  replyConfirm : Bool
  testsPass : Bool
  buildPass : Bool
  addExit : Nat
  commitExit : Nat
  tagExit : Nat
  pushBranchExit : Nat
  pushTagExit : Nat
deriving DecidableEq

/-- Repository state: descriptor files, local commit log (newest first),
local tags, and the remote's branch commits and tags. -/
structure Repo where
  files : Files
  commits : List String
  tags : List String
  remoteCommits : List String
  remoteTags : List String
deriving DecidableEq

inductive VerifStage
  | tests
  | buildCheck
deriving DecidableEq

inductive PubStep
  | commit
  | tag
  | pushBranch
  | pushTag
deriving DecidableEq

/-- Terminal result of one invocation (the spec's `PipelineOutcome`,
refined with the failure point). -/
inductive Outcome
  | completed
  | dryRunReport
  | failedValidation
  | failedEnv
  | abortedByUser
  | abortedByPrecondition
  | failedMutation
  | failedVerification (s : VerifStage)
  | failedPublish (p : PubStep) (code : Nat)
  | usageShown
  | argError
deriving DecidableEq

/-- Observable pipeline actions, in execution order. -/
inductive Event
  | mutatePkg
  | mutateGradle
  | tests (pass : Bool)
  | build (pass : Bool)
  | commit (code : Nat)
  | tagCreate (code : Nat)
  | pushBranch (code : Nat)
  | pushTag (code : Nat)
deriving DecidableEq

/-- The result of one invocation. -/
structure Run where
  exit : Nat
  repo : Repo
  log : List String
  trace : List Event
  outcome : Outcome
deriving DecidableEq

/-- `print_error "Invalid version format: ..."`. -/
def invalidVersionMsg (v : String) : String := "Invalid version format: " ++ v

/-- The `print_info` line of `validate_version` that names the expected
grammar. -/
def grammarMsg : String :=
  "Version must follow semantic versioning (e.g., 1.0.0, 1.2.3-beta)"

def missingDepsMsg : String := "Missing required dependencies"

def notARepoMsg : String := "Not in a git repository"

def abortedMsg : String := "Aborted by user"

def cancelledMsg : String := "Release cancelled by user"

/-- The release marker name `v{version}`. -/
def tagName (v : String) : String := "v" ++ v

def tagExistsMsg (v : String) : String := "Tag " ++ tagName v ++ " already exists"

def dryRunMsg : String := "DRY RUN MODE - No changes will be made"

def testsFailedMsg : String := "Tests failed"

def buildFailedMsg : String := "Android build failed"

def completedMsg (v : String) : String := "Release " ++ v ++ " completed successfully!"

/-- The deterministic commit message template of `commit_version_changes`. -/
def commitMsg (v : String) : String := "chore: bump version to " ++ v

/-- `grep '"version"' package.json` after the manifest update: succeeds
iff some line carries the quoted key. -/
def hasVersionLine (pkg : List (List Char)) : Bool :=
  pkg.any (fun line => occursIn "\"version\"".data line)

/-- `main`/`master` are the canonical branches of `check_git_status`. -/
def onMainBranch (b : String) : Bool := b == "main" || b == "master"

/-- Repository after only the manifest write (the grep check then fails). -/
def pkgOnlyRepo (cfg : Cfg) (r : Repo) : Repo :=
  { r with files := { pkg := updatePkg cfg.version r.files.pkg, gradle := r.files.gradle } }

/-- Repository after both descriptor files are mutated. -/
def mutatedRepo (cfg : Cfg) (r : Repo) : Repo :=
  { r with files := mutateFiles cfg.version r.files }

/-- Repository after the version-bump commit. -/
def committedRepo (cfg : Cfg) (r : Repo) : Repo :=
  { r with files := mutateFiles cfg.version r.files,
           commits := commitMsg cfg.version :: r.commits }

/-- Repository after the annotated release marker is created. -/
def taggedRepo (cfg : Cfg) (r : Repo) : Repo :=
  { r with files := mutateFiles cfg.version r.files,
           commits := commitMsg cfg.version :: r.commits,
           tags := tagName cfg.version :: r.tags }

/-- Repository after the branch push reaches the remote. -/
def branchPushedRepo (cfg : Cfg) (r : Repo) : Repo :=
  { r with files := mutateFiles cfg.version r.files,
           commits := commitMsg cfg.version :: r.commits,
           tags := tagName cfg.version :: r.tags,
           remoteCommits := commitMsg cfg.version :: r.commits }

/-- Repository after the marker push: the fully published state. -/
def fullyPushedRepo (cfg : Cfg) (r : Repo) : Repo :=
  { branchPushedRepo cfg r with remoteTags := tagName cfg.version :: r.remoteTags }

/-- Events up to a build attempt (a skipped stage emits no event). -/
def preBuildTrace (cfg : Cfg) : List Event :=
  [.mutatePkg, .mutateGradle] ++ (if cfg.skipTests then [] else [.tests true])

/-- Events of a fully passed mutation-and-verification phase. -/
def verifTrace (cfg : Cfg) : List Event :=
  preBuildTrace cfg ++ (if cfg.skipBuild then [] else [.build true])

/-- The live (non-dry-run) phase: descriptor mutation, verification gate
and publisher, in script order, stopping at the first failure
(release.sh lines 423-449). -/
def livePhase (cfg : Cfg) (env : Env) (r : Repo) : Run :=
  if !hasVersionLine (updatePkg cfg.version r.files.pkg) then
    ⟨1, pkgOnlyRepo cfg r, [], [.mutatePkg], .failedMutation⟩
  else if !cfg.skipTests && !env.testsPass then
    ⟨1, mutatedRepo cfg r, [testsFailedMsg],
      [.mutatePkg, .mutateGradle, .tests false], .failedVerification .tests⟩
  else if !cfg.skipBuild && !env.buildPass then
    ⟨1, mutatedRepo cfg r, [buildFailedMsg], preBuildTrace cfg ++ [.build false],
      .failedVerification .buildCheck⟩
  else if env.addExit ≠ 0 then
    ⟨env.addExit, mutatedRepo cfg r, [], verifTrace cfg ++ [.commit env.addExit],
      .failedPublish .commit env.addExit⟩
  else if env.commitExit ≠ 0 then
    ⟨env.commitExit, mutatedRepo cfg r, [], verifTrace cfg ++ [.commit env.commitExit],
      .failedPublish .commit env.commitExit⟩
  else if env.tagExit ≠ 0 then
    ⟨env.tagExit, committedRepo cfg r, [],
      verifTrace cfg ++ [.commit 0, .tagCreate env.tagExit],
      .failedPublish .tag env.tagExit⟩
  else if env.pushBranchExit ≠ 0 then
    ⟨env.pushBranchExit, taggedRepo cfg r, [],
      verifTrace cfg ++ [.commit 0, .tagCreate 0, .pushBranch env.pushBranchExit],
      .failedPublish .pushBranch env.pushBranchExit⟩
  else if env.pushTagExit ≠ 0 then
    ⟨env.pushTagExit, branchPushedRepo cfg r, [],
      verifTrace cfg ++ [.commit 0, .tagCreate 0, .pushBranch 0, .pushTag env.pushTagExit],
      .failedPublish .pushTag env.pushTagExit⟩
  else
    ⟨0, fullyPushedRepo cfg r, [completedMsg cfg.version],
      verifTrace cfg ++ [.commit 0, .tagCreate 0, .pushBranch 0, .pushTag 0], .completed⟩

/-- `perform_release` (release.sh lines 366-450): validation, dependency
check, repository inspection with overridable prompts, the unconditional
marker-uniqueness check, confirmation, the dry-run stop, then the live
phase. -/
def performRelease (cfg : Cfg) (env : Env) (r : Repo) : Run :=
  if !validVersion cfg.version then
    ⟨1, r, [invalidVersionMsg cfg.version, grammarMsg], [], .failedValidation⟩
  else
  if !env.gitInstalled || !env.nodeInstalled then
    ⟨1, r, [missingDepsMsg], [], .failedEnv⟩
  else
  if !env.inGitRepo then
    ⟨1, r, [notARepoMsg], [], .failedEnv⟩
  else
  if env.dirty && !cfg.force && !env.replyDirty then
    ⟨1, r, [abortedMsg], [], .abortedByUser⟩
  else
  if !onMainBranch env.branch && !cfg.force && !env.replyBranch then
    ⟨1, r, [abortedMsg], [], .abortedByUser⟩
  else
  if tagName cfg.version ∈ r.tags then
    ⟨1, r, [tagExistsMsg cfg.version], [], .abortedByPrecondition⟩
  else
  if !cfg.dryRun && !cfg.force && !env.replyConfirm then
    ⟨1, r, [cancelledMsg], [], .abortedByUser⟩
  else
  if cfg.dryRun then
    ⟨0, r, [dryRunMsg], [], .dryRunReport⟩
  else
  livePhase cfg env r

/-! ### Witness fixtures: a canonical configuration, environment and
repository for concrete instantiations -/

/-- A flagless configuration for a given version argument. -/
def wCfg (v : String) : Cfg := ⟨v, false, false, false, false, false⟩

/-- A benign environment: all tools present, clean tree on `main`, every
prompt answered yes, verification passing, every git command succeeding. -/
def wEnv : Env :=
  ⟨true, true, true, true, false, "main", true, true, true, true, true, 0, 0, 0, 0, 0⟩

/-- A small repository holding the two descriptor files. -/
def wRepo : Repo :=
  ⟨⟨[" \"version\": \"0.0.1\",".data],
    [" versionCode 1".data, " versionName \"0.0.1\"".data]⟩, [], [], [], []⟩

/-! ### Claims C3, C4, C5 -/

/-- Claim C3: for every input not matching the grammar
`MAJOR.MINOR.PATCH[-label]`, the pipeline exits with code 1, reports the
message naming the expected grammar, and no descriptor file (nor any
other repository state) is modified. -/
theorem c3_invalid_version_rejected (cfg : Cfg) (env : Env) (r : Repo)
    (h : validVersion cfg.version = false) :
    (performRelease cfg env r).exit = 1 ∧
    grammarMsg ∈ (performRelease cfg env r).log ∧
    (performRelease cfg env r).repo = r ∧
    (performRelease cfg env r).outcome = Outcome.failedValidation := by
  rw [performRelease]
  rw [if_pos (show (!validVersion cfg.version) = true from by rw [h]; rfl)]
  exact ⟨rfl, by simp, rfl, rfl⟩

/-- Witness for C3 at the claim's own ill-formed inputs `1.0`, `v1.0.0`
and `1.0.0.0`. -/
theorem c3_invalid_version_rejected_witness :
    ((performRelease (wCfg "1.0") wEnv wRepo).exit = 1 ∧
      grammarMsg ∈ (performRelease (wCfg "1.0") wEnv wRepo).log ∧
      (performRelease (wCfg "1.0") wEnv wRepo).repo = wRepo ∧
      (performRelease (wCfg "1.0") wEnv wRepo).outcome = Outcome.failedValidation) ∧
    ((performRelease (wCfg "v1.0.0") wEnv wRepo).exit = 1 ∧
      grammarMsg ∈ (performRelease (wCfg "v1.0.0") wEnv wRepo).log ∧
      (performRelease (wCfg "v1.0.0") wEnv wRepo).repo = wRepo ∧
      (performRelease (wCfg "v1.0.0") wEnv wRepo).outcome = Outcome.failedValidation) ∧
    ((performRelease (wCfg "1.0.0.0") wEnv wRepo).exit = 1 ∧
      grammarMsg ∈ (performRelease (wCfg "1.0.0.0") wEnv wRepo).log ∧
      (performRelease (wCfg "1.0.0.0") wEnv wRepo).repo = wRepo ∧
      (performRelease (wCfg "1.0.0.0") wEnv wRepo).outcome = Outcome.failedValidation) :=
  ⟨c3_invalid_version_rejected (wCfg "1.0") wEnv wRepo (by decide),
   c3_invalid_version_rejected (wCfg "v1.0.0") wEnv wRepo (by decide),
   c3_invalid_version_rejected (wCfg "1.0.0.0") wEnv wRepo (by decide)⟩

/-- Claim C4: whenever the release marker `v{version}` already exists in
the repository, the pipeline exits with code 1 before any mutation — for
every combination of force flag, skip flags and prompt replies — and
never reaches a completed or dry-run outcome. -/
theorem c4_existing_marker_fatal (cfg : Cfg) (env : Env) (r : Repo)
    (h : tagName cfg.version ∈ r.tags) :
    (performRelease cfg env r).exit = 1 ∧
    (performRelease cfg env r).repo = r ∧
    (performRelease cfg env r).outcome ≠ Outcome.completed ∧
    (performRelease cfg env r).outcome ≠ Outcome.dryRunReport := by
  rw [performRelease]
  split
  next => exact ⟨rfl, rfl, by simp, by simp⟩
  next =>
    split
    next => exact ⟨rfl, rfl, by simp, by simp⟩
    next =>
      split
      next => exact ⟨rfl, rfl, by simp, by simp⟩
      next =>
        split
        next => exact ⟨rfl, rfl, by simp, by simp⟩
        next =>
          split
          next => exact ⟨rfl, rfl, by simp, by simp⟩
          next => exact ⟨rfl, rfl, by simp, by simp⟩

/-- Witness for C4: a forced, skip-everything invocation against a
repository already holding `v1.0.0` still fails without mutating. -/
theorem c4_existing_marker_fatal_witness :
    (performRelease ⟨"1.0.0", true, true, false, false, true⟩ wEnv
      { wRepo with tags := ["v1.0.0"] }).exit = 1 ∧
    (performRelease ⟨"1.0.0", true, true, false, false, true⟩ wEnv
      { wRepo with tags := ["v1.0.0"] }).repo = { wRepo with tags := ["v1.0.0"] } ∧
    (performRelease ⟨"1.0.0", true, true, false, false, true⟩ wEnv
      { wRepo with tags := ["v1.0.0"] }).outcome ≠ Outcome.completed ∧
    (performRelease ⟨"1.0.0", true, true, false, false, true⟩ wEnv
      { wRepo with tags := ["v1.0.0"] }).outcome ≠ Outcome.dryRunReport :=
  c4_existing_marker_fatal ⟨"1.0.0", true, true, false, false, true⟩ wEnv
    { wRepo with tags := ["v1.0.0"] } (by decide)

/-- Claim C5: a dry-run invocation leaves the entire repository state —
working tree, commit history, local tags and remote refs — exactly as it
was: the dry-run path writes no file, creates no commit or tag, and
pushes nothing. -/
theorem c5_dry_run_no_side_effects (cfg : Cfg) (env : Env) (r : Repo)
    (h : cfg.dryRun = true) :
    (performRelease cfg env r).repo = r := by
  rw [performRelease]
  split
  next => rfl
  next =>
    split
    next => rfl
    next =>
      split
      next => rfl
      next =>
        split
        next => rfl
        next =>
          split
          next => rfl
          next =>
            split
            next => rfl
            next =>
              split
              next => rfl
              next => rfl

/-- Witness for C5: a concrete dry run returns the repository untouched. -/
theorem c5_dry_run_no_side_effects_witness :
    (performRelease ⟨"1.0.1", false, false, false, true, false⟩ wEnv wRepo).repo = wRepo :=
  c5_dry_run_no_side_effects ⟨"1.0.1", false, false, false, true, false⟩ wEnv wRepo rfl

/-! ### Case analysis of a whole run -/

theorem or_of_not_notand {a b : Bool} (h : ¬((!a && !b) = true)) :
    a = true ∨ b = true := by
  cases a
  · cases b
    · exact absurd rfl h
    · exact Or.inr rfl
  · exact Or.inl rfl

theorem split_of_notand {a b : Bool} (h : (!a && !b) = true) :
    a = false ∧ b = false := by
  cases a
  · cases b
    · exact ⟨rfl, rfl⟩
    · exact absurd h (by simp)
  · exact absurd h (by simp)

/-- The verification gate succeeded (or was skipped) stage by stage. -/
def verifOk (cfg : Cfg) (env : Env) : Prop :=
  (cfg.skipTests = true ∨ env.testsPass = true) ∧
  (cfg.skipBuild = true ∨ env.buildPass = true)

set_option maxHeartbeats 2000000 in
/-- Master case analysis: every run of `perform_release` ends in one of
these explicitly listed results, each reached only under the recorded
conditions. -/
theorem performRelease_cases (cfg : Cfg) (env : Env) (r : Repo) (motive : Run → Prop)
    (hval : motive ⟨1, r, [invalidVersionMsg cfg.version, grammarMsg], [],
      .failedValidation⟩)
    (hdeps : motive ⟨1, r, [missingDepsMsg], [], .failedEnv⟩)
    (hrepo : motive ⟨1, r, [notARepoMsg], [], .failedEnv⟩)
    (habort : motive ⟨1, r, [abortedMsg], [], .abortedByUser⟩)
    (htag : motive ⟨1, r, [tagExistsMsg cfg.version], [], .abortedByPrecondition⟩)
    (hconfirm : motive ⟨1, r, [cancelledMsg], [], .abortedByUser⟩)
    (hdry : cfg.dryRun = true → motive ⟨0, r, [dryRunMsg], [], .dryRunReport⟩)
    (hgrep : motive ⟨1, pkgOnlyRepo cfg r, [], [.mutatePkg], .failedMutation⟩)
    (htests : cfg.skipTests = false → env.testsPass = false →
      motive ⟨1, mutatedRepo cfg r, [testsFailedMsg],
        [.mutatePkg, .mutateGradle, .tests false], .failedVerification .tests⟩)
    (hbuild : cfg.skipBuild = false → env.buildPass = false →
      (cfg.skipTests = true ∨ env.testsPass = true) →
      motive ⟨1, mutatedRepo cfg r, [buildFailedMsg], preBuildTrace cfg ++ [.build false],
        .failedVerification .buildCheck⟩)
    (hadd : env.addExit ≠ 0 → verifOk cfg env →
      motive ⟨env.addExit, mutatedRepo cfg r, [], verifTrace cfg ++ [.commit env.addExit],
        .failedPublish .commit env.addExit⟩)
    (hcommit : env.commitExit ≠ 0 → verifOk cfg env →
      motive ⟨env.commitExit, mutatedRepo cfg r, [],
        verifTrace cfg ++ [.commit env.commitExit],
        .failedPublish .commit env.commitExit⟩)
    (htagc : env.tagExit ≠ 0 → verifOk cfg env →
      motive ⟨env.tagExit, committedRepo cfg r, [],
        verifTrace cfg ++ [.commit 0, .tagCreate env.tagExit],
        .failedPublish .tag env.tagExit⟩)
    (hpushb : env.pushBranchExit ≠ 0 → verifOk cfg env →
      motive ⟨env.pushBranchExit, taggedRepo cfg r, [],
        verifTrace cfg ++ [.commit 0, .tagCreate 0, .pushBranch env.pushBranchExit],
        .failedPublish .pushBranch env.pushBranchExit⟩)
    (hpusht : env.pushTagExit ≠ 0 → verifOk cfg env →
      motive ⟨env.pushTagExit, branchPushedRepo cfg r, [],
        verifTrace cfg ++ [.commit 0, .tagCreate 0, .pushBranch 0,
          .pushTag env.pushTagExit],
        .failedPublish .pushTag env.pushTagExit⟩)
    (hdone : verifOk cfg env →
      motive ⟨0, fullyPushedRepo cfg r, [completedMsg cfg.version],
        verifTrace cfg ++ [.commit 0, .tagCreate 0, .pushBranch 0, .pushTag 0],
        .completed⟩) :
    motive (performRelease cfg env r) := by
  rw [performRelease]
  split
  next => exact hval
  next =>
    split
    next => exact hdeps
    next =>
      split
      next => exact hrepo
      next =>
        split
        next => exact habort
        next =>
          split
          next => exact habort
          next =>
            split
            next => exact htag
            next =>
              split
              next => exact hconfirm
              next =>
                split
                next hdr => exact hdry hdr
                next hndr =>
                  rw [livePhase]
                  split
                  next => exact hgrep
                  next =>
                    split
                    next ht =>
                      obtain ⟨h1, h2⟩ := split_of_notand ht
                      exact htests h1 h2
                    next hnt =>
                      have htok := or_of_not_notand hnt
                      split
                      next hb =>
                        obtain ⟨h1, h2⟩ := split_of_notand hb
                        exact hbuild h1 h2 htok
                      next hnb =>
                        have hbok := or_of_not_notand hnb
                        have hvok : verifOk cfg env := ⟨htok, hbok⟩
                        split
                        next ha => exact hadd ha hvok
                        next hna =>
                          split
                          next hc => exact hcommit hc hvok
                          next hnc =>
                            split
                            next htc => exact htagc htc hvok
                            next hntc =>
                              split
                              next hpb => exact hpushb hpb hvok
                              next hnpb =>
                                split
                                next hpt => exact hpusht hpt hvok
                                next hnpt => exact hdone hvok

/-! ### Claims C7, C8 -/

/-- Claim C7: whenever the verification gate fails (tests or build
check), the run exits with code 1 and both descriptor files keep the
mutations already applied, on disk and uncommitted — no rollback — while
no commit, marker, or push is created. -/
theorem c7_verification_failure_keeps_mutations (cfg : Cfg) (env : Env) (r : Repo) :
    ∀ s, (performRelease cfg env r).outcome = Outcome.failedVerification s →
      (performRelease cfg env r).exit = 1 ∧
      (performRelease cfg env r).repo.files = mutateFiles cfg.version r.files ∧
      (performRelease cfg env r).repo.commits = r.commits ∧
      (performRelease cfg env r).repo.tags = r.tags ∧
      (performRelease cfg env r).repo.remoteCommits = r.remoteCommits ∧
      (performRelease cfg env r).repo.remoteTags = r.remoteTags := by
  refine performRelease_cases cfg env r
    (fun run => ∀ s, run.outcome = Outcome.failedVerification s →
      run.exit = 1 ∧ run.repo.files = mutateFiles cfg.version r.files ∧
      run.repo.commits = r.commits ∧ run.repo.tags = r.tags ∧
      run.repo.remoteCommits = r.remoteCommits ∧ run.repo.remoteTags = r.remoteTags)
    ?_ ?_ ?_ ?_ ?_ ?_ ?_ ?_ ?_ ?_ ?_ ?_ ?_ ?_ ?_ ?_
  case _ => intro s hcon; exact absurd hcon (by simp)
  case _ => intro s hcon; exact absurd hcon (by simp)
  case _ => intro s hcon; exact absurd hcon (by simp)
  case _ => intro s hcon; exact absurd hcon (by simp)
  case _ => intro s hcon; exact absurd hcon (by simp)
  case _ => intro s hcon; exact absurd hcon (by simp)
  case _ => intro hdr s hcon; exact absurd hcon (by simp)
  case _ => intro s hcon; exact absurd hcon (by simp)
  case _ => intro h1 h2 s hcon; exact ⟨rfl, rfl, rfl, rfl, rfl, rfl⟩
  case _ => intro h1 h2 h3 s hcon; exact ⟨rfl, rfl, rfl, rfl, rfl, rfl⟩
  case _ => intro hne hvk s hcon; exact absurd hcon (by simp)
  case _ => intro hne hvk s hcon; exact absurd hcon (by simp)
  case _ => intro hne hvk s hcon; exact absurd hcon (by simp)
  case _ => intro hne hvk s hcon; exact absurd hcon (by simp)
  case _ => intro hne hvk s hcon; exact absurd hcon (by simp)
  case _ => intro hvk s hcon; exact absurd hcon (by simp)

/-- Witness for C7: with tests failing, the run reports a tests-stage
verification failure, both files carry the new version, and nothing was
committed, tagged, or pushed. -/
theorem c7_verification_failure_keeps_mutations_witness :
    (performRelease (wCfg "1.2.3") { wEnv with testsPass := false } wRepo).exit = 1 ∧
    (performRelease (wCfg "1.2.3") { wEnv with testsPass := false } wRepo).repo.files =
      mutateFiles "1.2.3" wRepo.files ∧
    (performRelease (wCfg "1.2.3") { wEnv with testsPass := false } wRepo).repo.commits =
      wRepo.commits ∧
    (performRelease (wCfg "1.2.3") { wEnv with testsPass := false } wRepo).repo.tags =
      wRepo.tags ∧
    (performRelease (wCfg "1.2.3") { wEnv with testsPass := false } wRepo).repo.remoteCommits =
      wRepo.remoteCommits ∧
    (performRelease (wCfg "1.2.3") { wEnv with testsPass := false } wRepo).repo.remoteTags =
      wRepo.remoteTags :=
  c7_verification_failure_keeps_mutations (wCfg "1.2.3")
    { wEnv with testsPass := false } wRepo VerifStage.tests (by decide)

/-- Claim C8 (amended): the exit code is 0 exactly when the outcome is
Completed or DryRunReport; validation, environment, precondition,
mutation and verification failures and user-declined confirmations exit
with code 1; a publish failure exits with the failing git command's own
nonzero exit status — which need not be 1, as the counterexample shows. -/
theorem c8_exit_code_mapping (cfg : Cfg) (env : Env) (r : Repo) :
    ((performRelease cfg env r).exit = 0 ↔
      ((performRelease cfg env r).outcome = Outcome.completed ∨
       (performRelease cfg env r).outcome = Outcome.dryRunReport)) ∧
    (((performRelease cfg env r).outcome = Outcome.failedValidation ∨
      (performRelease cfg env r).outcome = Outcome.failedEnv ∨
      (performRelease cfg env r).outcome = Outcome.abortedByUser ∨
      (performRelease cfg env r).outcome = Outcome.abortedByPrecondition ∨
      (performRelease cfg env r).outcome = Outcome.failedMutation ∨
      (∃ s, (performRelease cfg env r).outcome = Outcome.failedVerification s)) →
      (performRelease cfg env r).exit = 1) ∧
    (∀ p code, (performRelease cfg env r).outcome = Outcome.failedPublish p code →
      (performRelease cfg env r).exit = code ∧ code ≠ 0) := by
  refine performRelease_cases cfg env r
    (fun run =>
      ((run.exit = 0 ↔ (run.outcome = Outcome.completed ∨
        run.outcome = Outcome.dryRunReport)) ∧
      ((run.outcome = Outcome.failedValidation ∨ run.outcome = Outcome.failedEnv ∨
        run.outcome = Outcome.abortedByUser ∨
        run.outcome = Outcome.abortedByPrecondition ∨
        run.outcome = Outcome.failedMutation ∨
        (∃ s, run.outcome = Outcome.failedVerification s)) → run.exit = 1) ∧
      (∀ p code, run.outcome = Outcome.failedPublish p code →
        run.exit = code ∧ code ≠ 0)))
    ?_ ?_ ?_ ?_ ?_ ?_ ?_ ?_ ?_ ?_ ?_ ?_ ?_ ?_ ?_ ?_
  case _ => exact ⟨by simp, fun _ => rfl, by simp⟩
  case _ => exact ⟨by simp, fun _ => rfl, by simp⟩
  case _ => exact ⟨by simp, fun _ => rfl, by simp⟩
  case _ => exact ⟨by simp, fun _ => rfl, by simp⟩
  case _ => exact ⟨by simp, fun _ => rfl, by simp⟩
  case _ => exact ⟨by simp, fun _ => rfl, by simp⟩
  case _ => intro _; exact ⟨by simp, by simp, by simp⟩
  case _ => exact ⟨by simp, fun _ => rfl, by simp⟩
  case _ => intro _ _; exact ⟨by simp, fun _ => rfl, by simp⟩
  case _ => intro _ _ _; exact ⟨by simp, fun _ => rfl, by simp⟩
  case _ =>
    intro hne _
    refine ⟨by simp [hne], by simp, ?_⟩
    intro p code hcon
    simp only [Outcome.failedPublish.injEq] at hcon
    exact ⟨by rw [hcon.2], by rw [← hcon.2]; exact hne⟩
  case _ =>
    intro hne _
    refine ⟨by simp [hne], by simp, ?_⟩
    intro p code hcon
    simp only [Outcome.failedPublish.injEq] at hcon
    exact ⟨by rw [hcon.2], by rw [← hcon.2]; exact hne⟩
  case _ =>
    intro hne _
    refine ⟨by simp [hne], by simp, ?_⟩
    intro p code hcon
    simp only [Outcome.failedPublish.injEq] at hcon
    exact ⟨by rw [hcon.2], by rw [← hcon.2]; exact hne⟩
  case _ =>
    intro hne _
    refine ⟨by simp [hne], by simp, ?_⟩
    intro p code hcon
    simp only [Outcome.failedPublish.injEq] at hcon
    exact ⟨by rw [hcon.2], by rw [← hcon.2]; exact hne⟩
  case _ =>
    intro hne _
    refine ⟨by simp [hne], by simp, ?_⟩
    intro p code hcon
    simp only [Outcome.failedPublish.injEq] at hcon
    exact ⟨by rw [hcon.2], by rw [← hcon.2]; exact hne⟩
  case _ => intro _; exact ⟨by simp, by simp, by simp⟩

/-- Witness for C8's amended theorem at a fully successful run. -/
theorem c8_exit_code_mapping_witness :
    ((performRelease (wCfg "1.2.3") wEnv wRepo).exit = 0 ↔
      ((performRelease (wCfg "1.2.3") wEnv wRepo).outcome = Outcome.completed ∨
       (performRelease (wCfg "1.2.3") wEnv wRepo).outcome = Outcome.dryRunReport)) ∧
    (((performRelease (wCfg "1.2.3") wEnv wRepo).outcome = Outcome.failedValidation ∨
      (performRelease (wCfg "1.2.3") wEnv wRepo).outcome = Outcome.failedEnv ∨
      (performRelease (wCfg "1.2.3") wEnv wRepo).outcome = Outcome.abortedByUser ∨
      (performRelease (wCfg "1.2.3") wEnv wRepo).outcome = Outcome.abortedByPrecondition ∨
      (performRelease (wCfg "1.2.3") wEnv wRepo).outcome = Outcome.failedMutation ∨
      (∃ s, (performRelease (wCfg "1.2.3") wEnv wRepo).outcome =
        Outcome.failedVerification s)) →
      (performRelease (wCfg "1.2.3") wEnv wRepo).exit = 1) ∧
    (∀ p code, (performRelease (wCfg "1.2.3") wEnv wRepo).outcome =
        Outcome.failedPublish p code →
      (performRelease (wCfg "1.2.3") wEnv wRepo).exit = code ∧ code ≠ 0) :=
  c8_exit_code_mapping (wCfg "1.2.3") wEnv wRepo

/-- Claim C8, counterexample: when the branch push fails with git's
fatal-error status 128, the script (under `set -e`) exits with 128, not
with 1 as the claim requires for every publish failure. -/
theorem c8_counterexample :
    (performRelease ⟨"1.0.0", true, true, false, false, true⟩
      { wEnv with pushBranchExit := 128 } wRepo).outcome =
        Outcome.failedPublish PubStep.pushBranch 128 ∧
    (performRelease ⟨"1.0.0", true, true, false, false, true⟩
      { wEnv with pushBranchExit := 128 } wRepo).exit = 128 ∧
    (performRelease ⟨"1.0.0", true, true, false, false, true⟩
      { wEnv with pushBranchExit := 128 } wRepo).exit ≠ 1 := by decide

/-! ### Claim C9: ordering of the publish sub-steps -/

/-- Position of each action in the canonical pipeline order. -/
def evKind : Event → Nat
  | .mutatePkg => 0
  | .mutateGradle => 1
  | .tests _ => 2
  | .build _ => 3
  | .commit _ => 4
  | .tagCreate _ => 5
  | .pushBranch _ => 6
  | .pushTag _ => 7

theorem preBuildTrace_sub (cfg : Cfg) :
    List.Sublist (preBuildTrace cfg)
      [Event.mutatePkg, Event.mutateGradle, Event.tests true] := by
  cases hst : cfg.skipTests <;> simp [preBuildTrace, hst]

theorem verifTrace_sub (cfg : Cfg) :
    List.Sublist (verifTrace cfg)
      [Event.mutatePkg, Event.mutateGradle, Event.tests true, Event.build true] := by
  cases hst : cfg.skipTests <;> cases hsb : cfg.skipBuild <;>
    simp [verifTrace, preBuildTrace, hst, hsb]

theorem verifTrace_mutate (cfg : Cfg) :
    Event.mutatePkg ∈ verifTrace cfg ∧ Event.mutateGradle ∈ verifTrace cfg := by
  cases hst : cfg.skipTests <;> cases hsb : cfg.skipBuild <;>
    simp [verifTrace, preBuildTrace, hst, hsb]

theorem verifTrace_kind_le (cfg : Cfg) : ∀ e ∈ verifTrace cfg, evKind e ≤ 3 := by
  intro e he
  have hmem := (verifTrace_sub cfg).subset he
  simp only [List.mem_cons, List.not_mem_nil, or_false] at hmem
  rcases hmem with rfl | rfl | rfl | rfl <;> decide

theorem preBuildTrace_kind_le (cfg : Cfg) : ∀ e ∈ preBuildTrace cfg, evKind e ≤ 2 := by
  intro e he
  have hmem := (preBuildTrace_sub cfg).subset he
  simp only [List.mem_cons, List.not_mem_nil, or_false] at hmem
  rcases hmem with rfl | rfl | rfl <;> decide

theorem map_verifTrace_sub (cfg : Cfg) :
    List.Sublist ((verifTrace cfg).map evKind) [0, 1, 2, 3] := by
  have h := (verifTrace_sub cfg).map evKind
  simpa [evKind] using h

theorem map_preBuildTrace_sub (cfg : Cfg) :
    List.Sublist ((preBuildTrace cfg).map evKind) [0, 1, 2] := by
  have h := (preBuildTrace_sub cfg).map evKind
  simpa [evKind] using h

theorem trace_sublist_of (cfg : Cfg) (post : List Event)
    (hpost : List.Sublist (post.map evKind) [4, 5, 6, 7]) :
    List.Sublist ((verifTrace cfg ++ post).map evKind) [0, 1, 2, 3, 4, 5, 6, 7] := by
  rw [List.map_append]
  exact ((map_verifTrace_sub cfg).append hpost :
    List.Sublist _ ([0, 1, 2, 3] ++ [4, 5, 6, 7]))

theorem not_mem_verifTrace_of_kind (cfg : Cfg) (e : Event) (he : 4 ≤ evKind e) :
    e ∉ verifTrace cfg := by
  intro hmem
  have := verifTrace_kind_le cfg e hmem
  omega

/-- Claim C9: in every live invocation the publish sub-steps occur in the
strict order commit, then annotated tag creation, then branch push, then
tag push; each is attempted only after the previous succeeded; and no
publish sub-step begins before both mutations are done and the
verification stages have passed or been skipped. -/
theorem c9_publish_order (cfg : Cfg) (env : Env) (r : Repo)
    (_hlive : cfg.dryRun = false) :
    List.Sublist ((performRelease cfg env r).trace.map evKind)
      [0, 1, 2, 3, 4, 5, 6, 7] ∧
    (∀ c, Event.tagCreate c ∈ (performRelease cfg env r).trace →
      Event.commit 0 ∈ (performRelease cfg env r).trace) ∧
    (∀ c, Event.pushBranch c ∈ (performRelease cfg env r).trace →
      Event.tagCreate 0 ∈ (performRelease cfg env r).trace) ∧
    (∀ c, Event.pushTag c ∈ (performRelease cfg env r).trace →
      Event.pushBranch 0 ∈ (performRelease cfg env r).trace) ∧
    (∀ c, Event.commit c ∈ (performRelease cfg env r).trace →
      Event.mutatePkg ∈ (performRelease cfg env r).trace ∧
      Event.mutateGradle ∈ (performRelease cfg env r).trace ∧
      (cfg.skipTests = true ∨ env.testsPass = true) ∧
      (cfg.skipBuild = true ∨ env.buildPass = true)) := by
  refine performRelease_cases cfg env r
    (fun run =>
      List.Sublist (run.trace.map evKind) [0, 1, 2, 3, 4, 5, 6, 7] ∧
      (∀ c, Event.tagCreate c ∈ run.trace → Event.commit 0 ∈ run.trace) ∧
      (∀ c, Event.pushBranch c ∈ run.trace → Event.tagCreate 0 ∈ run.trace) ∧
      (∀ c, Event.pushTag c ∈ run.trace → Event.pushBranch 0 ∈ run.trace) ∧
      (∀ c, Event.commit c ∈ run.trace →
        Event.mutatePkg ∈ run.trace ∧ Event.mutateGradle ∈ run.trace ∧
        (cfg.skipTests = true ∨ env.testsPass = true) ∧
        (cfg.skipBuild = true ∨ env.buildPass = true)))
    ?_ ?_ ?_ ?_ ?_ ?_ ?_ ?_ ?_ ?_ ?_ ?_ ?_ ?_ ?_ ?_
  case _ => exact ⟨List.nil_sublist _, by simp, by simp, by simp, by simp⟩
  case _ => exact ⟨List.nil_sublist _, by simp, by simp, by simp, by simp⟩
  case _ => exact ⟨List.nil_sublist _, by simp, by simp, by simp, by simp⟩
  case _ => exact ⟨List.nil_sublist _, by simp, by simp, by simp, by simp⟩
  case _ => exact ⟨List.nil_sublist _, by simp, by simp, by simp, by simp⟩
  case _ => exact ⟨List.nil_sublist _, by simp, by simp, by simp, by simp⟩
  case _ =>
    intro _
    exact ⟨List.nil_sublist _, by simp, by simp, by simp, by simp⟩
  case _ =>
    exact ⟨(by decide : List.Sublist [0] [0, 1, 2, 3, 4, 5, 6, 7]),
      by simp, by simp, by simp, by simp⟩
  case _ =>
    intro h1 h2
    exact ⟨(by decide : List.Sublist [0, 1, 2] [0, 1, 2, 3, 4, 5, 6, 7]),
      by simp, by simp, by simp, by simp⟩
  case _ =>
    intro h1 h2 h3
    refine ⟨?_, ?_, ?_, ?_, ?_⟩
    · rw [List.map_append]
      have hpost : List.Sublist ([3] : List Nat) [3, 4, 5, 6, 7] := by decide
      exact ((map_preBuildTrace_sub cfg).append hpost :
        List.Sublist _ ([0, 1, 2] ++ [3, 4, 5, 6, 7]))
    · intro c hc
      rcases List.mem_append.mp hc with h | h
      · have := preBuildTrace_kind_le cfg _ h
        simp [evKind] at this
      · simp at h
    · intro c hc
      rcases List.mem_append.mp hc with h | h
      · have := preBuildTrace_kind_le cfg _ h
        simp [evKind] at this
      · simp at h
    · intro c hc
      rcases List.mem_append.mp hc with h | h
      · have := preBuildTrace_kind_le cfg _ h
        simp [evKind] at this
      · simp at h
    · intro c hc
      rcases List.mem_append.mp hc with h | h
      · have := preBuildTrace_kind_le cfg _ h
        simp [evKind] at this
      · simp at h
  case _ =>
    intro hne hvk
    refine ⟨trace_sublist_of cfg _ ?_, ?_, ?_, ?_, ?_⟩
    · exact (by decide : List.Sublist [4] [4, 5, 6, 7])
    · intro c hc
      rcases List.mem_append.mp hc with h | h
      · exact absurd h (not_mem_verifTrace_of_kind cfg _ (by simp [evKind]))
      · simp at h
    · intro c hc
      rcases List.mem_append.mp hc with h | h
      · exact absurd h (not_mem_verifTrace_of_kind cfg _ (by simp [evKind]))
      · simp at h
    · intro c hc
      rcases List.mem_append.mp hc with h | h
      · exact absurd h (not_mem_verifTrace_of_kind cfg _ (by simp [evKind]))
      · simp at h
    · intro c hc
      exact ⟨List.mem_append_left _ (verifTrace_mutate cfg).1,
        List.mem_append_left _ (verifTrace_mutate cfg).2, hvk.1, hvk.2⟩
  case _ =>
    intro hne hvk
    refine ⟨trace_sublist_of cfg _ ?_, ?_, ?_, ?_, ?_⟩
    · exact (by decide : List.Sublist [4] [4, 5, 6, 7])
    · intro c hc
      rcases List.mem_append.mp hc with h | h
      · exact absurd h (not_mem_verifTrace_of_kind cfg _ (by simp [evKind]))
      · simp at h
    · intro c hc
      rcases List.mem_append.mp hc with h | h
      · exact absurd h (not_mem_verifTrace_of_kind cfg _ (by simp [evKind]))
      · simp at h
    · intro c hc
      rcases List.mem_append.mp hc with h | h
      · exact absurd h (not_mem_verifTrace_of_kind cfg _ (by simp [evKind]))
      · simp at h
    · intro c hc
      exact ⟨List.mem_append_left _ (verifTrace_mutate cfg).1,
        List.mem_append_left _ (verifTrace_mutate cfg).2, hvk.1, hvk.2⟩
  case _ =>
    intro hne hvk
    refine ⟨trace_sublist_of cfg _ ?_, ?_, ?_, ?_, ?_⟩
    · exact (by decide : List.Sublist [4, 5] [4, 5, 6, 7])
    · intro c hc
      exact List.mem_append_right _ (by simp)
    · intro c hc
      rcases List.mem_append.mp hc with h | h
      · exact absurd h (not_mem_verifTrace_of_kind cfg _ (by simp [evKind]))
      · simp at h
    · intro c hc
      rcases List.mem_append.mp hc with h | h
      · exact absurd h (not_mem_verifTrace_of_kind cfg _ (by simp [evKind]))
      · simp at h
    · intro c hc
      exact ⟨List.mem_append_left _ (verifTrace_mutate cfg).1,
        List.mem_append_left _ (verifTrace_mutate cfg).2, hvk.1, hvk.2⟩
  case _ =>
    intro hne hvk
    refine ⟨trace_sublist_of cfg _ ?_, ?_, ?_, ?_, ?_⟩
    · exact (by decide : List.Sublist [4, 5, 6] [4, 5, 6, 7])
    · intro c hc
      exact List.mem_append_right _ (by simp)
    · intro c hc
      exact List.mem_append_right _ (by simp)
    · intro c hc
      rcases List.mem_append.mp hc with h | h
      · exact absurd h (not_mem_verifTrace_of_kind cfg _ (by simp [evKind]))
      · simp at h
    · intro c hc
      exact ⟨List.mem_append_left _ (verifTrace_mutate cfg).1,
        List.mem_append_left _ (verifTrace_mutate cfg).2, hvk.1, hvk.2⟩
  case _ =>
    intro hne hvk
    refine ⟨trace_sublist_of cfg _ ?_, ?_, ?_, ?_, ?_⟩
    · exact (by decide : List.Sublist [4, 5, 6, 7] [4, 5, 6, 7])
    · intro c hc
      exact List.mem_append_right _ (by simp)
    · intro c hc
      exact List.mem_append_right _ (by simp)
    · intro c hc
      exact List.mem_append_right _ (by simp)
    · intro c hc
      exact ⟨List.mem_append_left _ (verifTrace_mutate cfg).1,
        List.mem_append_left _ (verifTrace_mutate cfg).2, hvk.1, hvk.2⟩
  case _ =>
    intro hvk
    refine ⟨trace_sublist_of cfg _ ?_, ?_, ?_, ?_, ?_⟩
    · exact (by decide : List.Sublist [4, 5, 6, 7] [4, 5, 6, 7])
    · intro c hc
      exact List.mem_append_right _ (by simp)
    · intro c hc
      exact List.mem_append_right _ (by simp)
    · intro c hc
      exact List.mem_append_right _ (by simp)
    · intro c hc
      exact ⟨List.mem_append_left _ (verifTrace_mutate cfg).1,
        List.mem_append_left _ (verifTrace_mutate cfg).2, hvk.1, hvk.2⟩

/-- Witness for C9 on a fully successful live run. -/
theorem c9_publish_order_witness :
    List.Sublist ((performRelease (wCfg "1.2.3") wEnv wRepo).trace.map evKind)
      [0, 1, 2, 3, 4, 5, 6, 7] ∧
    (∀ c, Event.tagCreate c ∈ (performRelease (wCfg "1.2.3") wEnv wRepo).trace →
      Event.commit 0 ∈ (performRelease (wCfg "1.2.3") wEnv wRepo).trace) ∧
    (∀ c, Event.pushBranch c ∈ (performRelease (wCfg "1.2.3") wEnv wRepo).trace →
      Event.tagCreate 0 ∈ (performRelease (wCfg "1.2.3") wEnv wRepo).trace) ∧
    (∀ c, Event.pushTag c ∈ (performRelease (wCfg "1.2.3") wEnv wRepo).trace →
      Event.pushBranch 0 ∈ (performRelease (wCfg "1.2.3") wEnv wRepo).trace) ∧
    (∀ c, Event.commit c ∈ (performRelease (wCfg "1.2.3") wEnv wRepo).trace →
      Event.mutatePkg ∈ (performRelease (wCfg "1.2.3") wEnv wRepo).trace ∧
      Event.mutateGradle ∈ (performRelease (wCfg "1.2.3") wEnv wRepo).trace ∧
      ((wCfg "1.2.3").skipTests = true ∨ wEnv.testsPass = true) ∧
      ((wCfg "1.2.3").skipBuild = true ∨ wEnv.buildPass = true)) :=
  c9_publish_order (wCfg "1.2.3") wEnv wRepo rfl

/-! ### Claim C10: the prerelease flag is parsed but never consulted -/

/-- Intermediate state of the argument-parsing loop of `main`
(release.sh lines 456-512): the six shell variables it maintains.
An empty `version` stands for the unset VERSION variable, exactly as
the script tests it with `-z`. -/
structure ParseSt where
  version : String
  skipTests : Bool
  skipBuild : Bool
  prerelease : Bool
  dryRun : Bool
  force : Bool
deriving DecidableEq

/-- Result of the parsing loop: either the final variable state, or an
early `exit` with the given code and outcome. -/
inductive ParseResult
  | ok (st : ParseSt)
  | stop (exit : Nat) (outc : Outcome)
deriving DecidableEq

/-- The bash pattern `-*`: a nonempty word starting with a dash. -/
def startsWithDash (s : String) : Bool :=
  match s.data with
  | [] => false
  | c :: _ => c == '-'

/-- The `while [[ $# -gt 0 ]] ... case $1 in` loop of `main`
(release.sh lines 465-507), one branch per case arm in source order. -/
def parseLoop : ParseSt → List String → ParseResult
  | st, [] => ParseResult.ok st
  | st, a :: rest =>
    if a = "-h" ∨ a = "--help" then ParseResult.stop 0 Outcome.usageShown
    else if a = "--skip-tests" then parseLoop {st with skipTests := true} rest
    else if a = "--skip-build" then parseLoop {st with skipBuild := true} rest
    else if a = "--prerelease" then parseLoop {st with prerelease := true} rest
    else if a = "--dry-run" then parseLoop {st with dryRun := true} rest
    else if a = "--force" then parseLoop {st with force := true} rest
    else if startsWithDash a then ParseResult.stop 1 Outcome.argError
    else if st.version = "" then parseLoop {st with version := a} rest
    else ParseResult.stop 1 Outcome.argError

/-- The initial variable state of `main` (release.sh lines 458-463). -/
def initSt : ParseSt := ⟨"", false, false, false, false, false⟩

/-- `main` (release.sh lines 456-519): parse the arguments, require a
version, then hand over to `perform_release`. -/
def runScript (args : List String) (env : Env) (r : Repo) : Run :=
  match parseLoop initSt args with
  | ParseResult.stop code outc => ⟨code, r, [], [], outc⟩
  | ParseResult.ok st =>
    if st.version = "" then ⟨1, r, [], [], Outcome.argError⟩
    else
      performRelease
        ⟨st.version, st.skipTests, st.skipBuild, st.prerelease, st.dryRun, st.force⟩
        env r

theorem parseLoop_append (xs ys : List String) (st : ParseSt) :
    parseLoop st (xs ++ ys) =
      match parseLoop st xs with
      | ParseResult.ok st1 => parseLoop st1 ys
      | ParseResult.stop code outc => ParseResult.stop code outc := by
  induction xs generalizing st with
  | nil => rfl
  | cons a xs ih =>
    simp only [List.cons_append, parseLoop]
    split
    · rfl
    · split
      · exact ih _
      · split
        · exact ih _
        · split
          · exact ih _
          · split
            · exact ih _
            · split
              · exact ih _
              · split
                · rfl
                · split
                  · exact ih _
                  · rfl

theorem parseLoop_prerelease (ys : List String) (st : ParseSt) :
    parseLoop {st with prerelease := true} ys =
      match parseLoop st ys with
      | ParseResult.ok st1 => ParseResult.ok {st1 with prerelease := true}
      | ParseResult.stop code outc => ParseResult.stop code outc := by
  induction ys generalizing st with
  | nil => rfl
  | cons a ys ih =>
    simp only [parseLoop]
    split
    · rfl
    · split
      · exact ih {st with skipTests := true}
      · split
        · exact ih {st with skipBuild := true}
        · split
          · exact ih {st with prerelease := true}
          · split
            · exact ih {st with dryRun := true}
            · split
              · exact ih {st with force := true}
              · split
                · rfl
                · split
                  · exact ih {st with version := a}
                  · rfl

theorem performRelease_prerelease (v : String) (a b p q d f : Bool)
    (env : Env) (r : Repo) :
    performRelease ⟨v, a, b, p, d, f⟩ env r = performRelease ⟨v, a, b, q, d, f⟩ env r :=
  rfl

/-- Claim C10: the prerelease flag is accepted by the argument parser but
changes nothing observable.  Inserting it anywhere on the command line
yields exactly the same run: same exit code, same repository state, same
messages, same actions, same outcome. -/
theorem c10_prerelease_noop (xs ys : List String) (env : Env) (r : Repo) :
    runScript (xs ++ "--prerelease" :: ys) env r = runScript (xs ++ ys) env r := by
  unfold runScript
  rw [parseLoop_append xs ("--prerelease" :: ys) initSt, parseLoop_append xs ys initSt]
  cases hx : parseLoop initSt xs with
  | stop code outc => rfl
  | ok st =>
    dsimp only
    have hstep : parseLoop st ("--prerelease" :: ys) =
        parseLoop {st with prerelease := true} ys := rfl
    rw [hstep, parseLoop_prerelease ys st]
    cases hy : parseLoop st ys with
    | stop code outc => rfl
    | ok st1 =>
      by_cases hv : st1.version = ""
      · simp [hv]
      · simp only [hv]
        exact performRelease_prerelease st1.version st1.skipTests st1.skipBuild
          true st1.prerelease st1.dryRun st1.force env r

end ReleaseScript
